import Mathlib

/-!
Shallow embedding of the TitSolver particle-mesh core and its graph
partitioning stack, with theorems checking the specification's claims.

The embedding covers:
* the parallel primitives of `tit/core/par/algorithms.hpp`
  (`deterministic_for_each`, `block_for_each`);
* the particle mesh of `tit/sph/particle_mesh.hpp` (`search_`,
  `partition_`, block-edge assembly);
* the graph coarsening of `tit/graph/coarsen.hpp` (`CoarsenHEM`,
  `CoarsenGEM`, `impl::build_coarse_graph`);
* the multilevel partitioner of `tit/graph/partition/multilevel.hpp`.

Components of the repository that are not present in the source tree
(`PartVec`, `Multivector::assign_pairs_par_wide`, `geom::GridSearch`,
`graph::Graph` accessors, `equality_ranges`, `greater_or`/`less_or`) are
modelled from the specification; each such definition carries a doc
comment starting with "Modelled from the spec:".

Real-valued data (positions, radii) is embedded over an arbitrary linear
ordered ring so the theorems cover both exact rationals and the reals;
concrete witnesses instantiate it with the integers.
-/

namespace TitSolver

variable {α : Type}

/-! ### Parallel primitives: deterministic chunking

Embeds `par::DeterministicForEachRange` (algorithms.hpp): with `N` the
range size and `T = num_threads()`, thread `t` receives the index range
`[t*q + min t r, (t+1)*q + min (t+1) r)` where `q = N / T`, `r = N % T`.
-/

/-- First index of the chunk handled by thread `t` in
`par::deterministic_for_each_range`: `t * (N / T) + min t (N % T)`. -/

def detFirst (N T t : ℕ) : ℕ :=
  t * (N / T) + min t (N % T)

/-- The contiguous index chunk handled by thread `t`. -/

def detChunk (N T t : ℕ) : List ℕ :=
  List.range' (detFirst N T t) (detFirst N T (t + 1) - detFirst N T t)

/-- All `T` chunks, in thread order. -/

def detChunks (N T : ℕ) : List (List ℕ) :=
  (List.range T).map (detChunk N T)

/-- The invocation log of `par::deterministic_for_each`: the pairs
`(element index, thread index)` passed to the body `f(x, thread_id)`,
a pure function of `(N, T)`. -/

def detInvocations (N T : ℕ) : List (ℕ × ℕ) :=
  (List.range T).flatMap (fun t => (detChunk N T t).map (fun e => (e, t)))

/-! ### Parallel primitives: block_for_each

Embeds `par::BlockForEach` (algorithms.hpp):

    std::ranges::for_each(
        std::views::chunk(range, num_threads()),
        std::bind_back(for_each,
                       std::bind_back(std::ranges::for_each, std::ref(func))));

The execution is represented as a list of *phases* run one after another
(the outer sequential `std::ranges::for_each` over `views::chunk`); each
phase holds the *tasks* that may run concurrently (the items handed to
`par::for_each`, i.e. the outer ranges of that chunk); each task is the
sequential trace of body invocations (the inner `std::ranges::for_each`
over one outer range). -/

/-- Fuel-driven chunking of a list into consecutive chunks of size `T`
(the last chunk may be shorter), mirroring `std::views::chunk(range, T)`.
The fuel argument is only a structural-termination device; it is always
called with the list's length. -/

def chunkGo (T : ℕ) : ℕ → List α → List (List α)
  | _, [] => []
  | 0, l => [l]
  | fuel + 1, x :: xs => (x :: xs.take (T - 1)) :: chunkGo T fuel (xs.drop (T - 1))

/-- Consecutive chunks of size `T` of a list, as produced by
`std::views::chunk(range, T)`. -/

def chunkList (T : ℕ) (l : List α) : List (List α) :=
  chunkGo T l.length l

/-- The phases of `par::block_for_each` with `T = num_threads()`: the
outer ranges are cut into consecutive chunks of `T`; the chunks run
sequentially, the up-to-`T` outer ranges inside one chunk run as
parallel tasks, and each task traverses its inner elements
sequentially. -/

def blockForEachPhases (T : ℕ) (rs : List (List α)) : List (List (List α)) :=
  chunkList T rs

/-- The schedule claimed by the specification for `block_for_each`,
stated in its words: outer elements one at a time (each outer element is
its own phase), the inner elements of that outer element in parallel
(each inner element is its own single-step task). -/

def outerSeqInnerParPhases (rs : List (List α)) : List (List (List α)) :=
  rs.map (fun inner => inner.map (fun x => [x]))

/-! ### Particle mesh: neighbor search

Embeds `ParticleMesh::search_` (particle_mesh.hpp). Positions live in
`R^d`, represented as lists over a linear ordered ring `R`; the distance
comparison `‖r_j - p‖ ≤ r` is encoded squared (`dist2 ≤ r·r`), which is
equivalent for the nonnegative radii the mesh asserts. -/

variable {R : Type} [LinearOrderedRing R]

/-- Squared Euclidean distance between two points. -/

def dist2 (p q : List R) : R :=
  (List.zipWith (fun a b => (a - b) * (a - b)) p q).sum

/-- Modelled from the spec: `geom::GridSearch` is absent from the source
tree. Per spec section 4.2, `search(p, r, out)` appends all ids `j` with
`‖r_j - p‖ ≤ r`, each exactly once, in no guaranteed order (the mesh
sorts afterwards); the model reports them in index order. -/

def gridSearch (pos : List (List R)) (p : List R) (r : R) : List ℕ :=
  (List.range pos.length).filter (fun j => decide (dist2 (pos.getD j []) p ≤ r * r))

/-- Sorting of a neighbor list (`std::ranges::sort(search_results)`). -/

def sortIds (l : List ℕ) : List ℕ :=
  List.insertionSort (fun a b => a ≤ b) l

/-- The per-particle neighbor lists built by the first loop of
`ParticleMesh::search_`: query within `radius_func(i)` around `r_i`,
then sort. -/

def searchAdjacency (pos : List (List R)) (radius : ℕ → R) : List (List ℕ) :=
  (List.range pos.length).map
    (fun i => sortIds (gridSearch pos (pos.getD i []) (radius i)))

/-- The neighbor list of particle `i` (`ParticleMesh::operator[]`). -/

def neighborsOf (pos : List (List R)) (radius : ℕ → R) (i : ℕ) : List ℕ :=
  (searchAdjacency pos radius).getD i []

/-- Componentwise clamp of a point into the axis-aligned box `[lo, hi]`
(`geom::BBox::clamp`). -/

def clampBox (lo hi x : List R) : List R :=
  List.zipWith (fun l bx => max l (min bx.1 bx.2)) lo (List.zip hi x)

/-- The interpolation query point of a fixed particle:
`2 * Domain.clamp(r_i) - r_i`. -/

def mirrorPoint (lo hi x : List R) : List R :=
  List.zipWith (fun c xi => 2 * c - xi) (clampBox lo hi x) x

/-- Indices of the fixed particles, in index order
(`particles.fixed()`). -/

def fixedIdx (fixed : List Bool) : List ℕ :=
  (List.range fixed.length).filter (fun i => fixed.getD i false)

/-- The interpolation adjacency built by the second loop of
`ParticleMesh::search_`: for the `i`-th fixed particle, query within
`3 * radius_func(a)` around the mirror point, erase fixed hits, sort. -/

def interpAdjacency (pos : List (List R)) (fixed : List Bool) (radius : ℕ → R)
    (lo hi : List R) : List (List ℕ) :=
  (fixedIdx fixed).map (fun a =>
    sortIds ((gridSearch pos (mirrorPoint lo hi (pos.getD a [])) (3 * radius a)).filter
      (fun b => ! fixed.getD b false)))

/-- The interpolation neighbor list of the `i`-th fixed particle
(`ParticleMesh::fixed_interp`). -/

def interpNeighborsOf (pos : List (List R)) (fixed : List Bool) (radius : ℕ → R)
    (lo hi : List R) (i : ℕ) : List ℕ :=
  (interpAdjacency pos fixed radius lo hi).getD i []

/-! ### Particle mesh: multilevel block partitioning

Embeds `ParticleMesh::partition_`. The geometric partitioners
(`RecursiveInertialBisection`) are template parameters of `ParticleMesh`
and absent from the source tree, so they are model parameters here:
`partFn positions T` labels every particle with a part in the first
level, and `secFn positions T initPart` labels a permuted subset in the
secondary levels. -/

/-- Total number of parts: `num_levels * num_threads + 1`. -/

def numParts (T L : ℕ) : ℕ :=
  L * T + 1

/-- Modelled from the spec: `PartVec` is absent from the source tree.
Per spec section 3 it is a fixed-capacity tuple of part ids, one per
level, and `PartVec::common` is the length of the common prefix of two
such tuples. -/

def commonLen : List ℕ → List ℕ → ℕ
  | a :: as, b :: bs => if a = b then commonLen as bs + 1 else 0
  | _, _ => 0

/-- The part id of particle `a` at a given level. -/

def levelPartAt (pvs : List (List ℕ)) (level a : ℕ) : ℕ :=
  (pvs.getD a []).getD level 0

/-- The interface test of `ParticleMesh::partition_`: particle `a` has
some adjacency neighbor whose part at this level differs from its
own. -/

def isInterfaceB (adj : List (List ℕ)) (pvs : List (List ℕ)) (level a : ℕ) : Bool :=
  (adj.getD a []).any (fun b => levelPartAt pvs level b != levelPartAt pvs level a)

/-- Writes `labels[k]` into level slot `level` of particle
`targets[k]`'s part vector, for all `k`. -/

def writeLevel (pvs : List (List ℕ)) (level : ℕ) (targets labels : List ℕ) :
    List (List ℕ) :=
  (targets.zip labels).foldl
    (fun ps al => ps.set al.1 ((ps.getD al.1 []).set level al.2)) pvs

/-- The level loop of `ParticleMesh::partition_`: initialize every part
vector to the sentinel `num_parts - 1`, label level `0` with the primary
partitioner over all particles, then label each further level with the
secondary partitioner over the current interface set (offset
`level * T`), updating the interface set between levels (skipped after
the last level). `M` is `PartVec::MaxNumLevels`. -/

def partitionStep (pos : List (List R)) (adj : List (List ℕ)) (T L : ℕ)
    (partFn : List (List R) → ℕ → List ℕ)
    (secFn : List (List R) → ℕ → ℕ → List ℕ)
    (st : List (List ℕ) × List ℕ) (level : ℕ) : List (List ℕ) × List ℕ :=
  let pvs' :=
    if level = 0 then writeLevel st.1 0 (List.range pos.length) (partFn pos T)
    else writeLevel st.1 level st.2
      (secFn (st.2.map (fun a => pos.getD a [])) T (level * T))
  if level = L - 1 then (pvs', st.2)
  else
    (pvs',
      if level = 0 then (List.range pos.length).filter (isInterfaceB adj pvs' level)
      else st.2.filter (isInterfaceB adj pvs' level))

def partitionLevels (pos : List (List R)) (adj : List (List ℕ)) (T L M : ℕ)
    (partFn : List (List R) → ℕ → List ℕ)
    (secFn : List (List R) → ℕ → ℕ → List ℕ) : List (List ℕ) :=
  ((List.range L).foldl (partitionStep pos adj T L partFn secFn)
    (List.replicate pos.length (List.replicate M (numParts T L - 1)),
     ([] : List ℕ))).1

/-- The unique unordered edges of the (possibly asymmetric) adjacency:
all pairs `(a, b)` with `b ∈ adj(a)` and `a < b`
(`graph::Graph::edges`, per spec section 4.3). -/

def graphEdges (adj : List (List ℕ)) : List (ℕ × ℕ) :=
  (List.range adj.length).flatMap
    (fun a => (adj.getD a []).filterMap
      (fun b => if a < b then some (a, b) else none))

/-- Modelled from the spec: `Multivector::assign_pairs_par_wide` is
absent from the source tree. Per spec section 4.8 it distributes keyed
pairs into `numBuckets` buckets, bucket `k` receiving the pairs with
key `k`. -/

def assignPairsWide (numBuckets : ℕ) (keyed : List (ℕ × ℕ × ℕ)) :
    List (List (ℕ × ℕ)) :=
  (List.range numBuckets).map
    (fun k => (keyed.filter (fun kv => kv.1 == k)).map (fun kv => kv.2))

/-- The keyed edge list fed to `assign_pairs_par_wide`
(`adjacency_.transform_edges`): each edge `(a, b)` is keyed by
`PartVec::common(parts[a], parts[b])`. -/

def keyedEdges (adj : List (List ℕ)) (pvs : List (List ℕ)) : List (ℕ × ℕ × ℕ) :=
  (graphEdges adj).map
    (fun ab => (commonLen (pvs.getD ab.1 []) (pvs.getD ab.2 []), ab))

/-- The outputs of `ParticleMesh::update`: the two adjacency graphs, the
per-particle part vectors (written into the particle array), and the
bucketed block edges. -/

structure MeshState where
  adjacency : List (List ℕ)
  interp : List (List ℕ)
  partVecs : List (List ℕ)
  blockEdges : List (List (ℕ × ℕ))
deriving DecidableEq

/-- One `ParticleMesh::update` step: neighbor search, interpolation
search, multilevel partitioning, block-edge assembly. -/

def meshUpdate (T L M : ℕ) (pos : List (List R)) (fixed : List Bool)
    (radius : ℕ → R) (lo hi : List R)
    (partFn : List (List R) → ℕ → List ℕ)
    (secFn : List (List R) → ℕ → ℕ → List ℕ) : MeshState :=
  let adj := searchAdjacency pos radius
  let pvs := partitionLevels pos adj T L M partFn secFn
  { adjacency := adj
    interp := interpAdjacency pos fixed radius lo hi
    partVecs := pvs
    blockEdges := assignPairsWide (numParts T L + 1) (keyedEdges adj pvs) }

/-- The first error raised by `radius_func` over the particles, if any:
the parallel search loop evaluates the radius of every particle, and a
failure of any task is re-raised to the caller once the loop joins. -/

def firstRadiusErr {ε : Type} (N : ℕ) (radiusE : ℕ → Except ε R) : Option ε :=
  (List.range N).findSome? (fun i =>
    match radiusE i with
    | Except.error e => some e
    | Except.ok _ => none)

/-- A `ParticleMesh::update` call with a fallible `radius_func`, acting
on the mesh outputs of the previous step. If some task raises, the error
propagates out of the first parallel loop of `search_` before any of
`adjacency_`, `interp_adjacency_` or `block_edges_` has been touched, so
the previous outputs remain; otherwise the update runs with the
returned radii. -/

def meshUpdateE {ε : Type} (prev : MeshState) (T L M : ℕ) (pos : List (List R))
    (fixed : List Bool) (radiusE : ℕ → Except ε R) (lo hi : List R)
    (partFn : List (List R) → ℕ → List ℕ)
    (secFn : List (List R) → ℕ → ℕ → List ℕ) : MeshState × Option ε :=
  match firstRadiusErr pos.length radiusE with
  | some e => (prev, some e)
  | none =>
      (meshUpdate T L M pos fixed (fun i => ((radiusE i).toOption).getD 0) lo hi
        partFn secFn, none)

/-! ### Weighted graphs and coarsening

Modelled from the spec: `graph::Graph` / `WeightedGraph` are absent from
the source tree. Per spec section 4.3, a weighted graph is a compressed
per-node structure exposing per-node weights, per-node weighted
adjacency (`wedges(v)`), and a global `wedges()` view of the unique
unordered edges `(a, b, w)` with `a < b`. A node here is the pair of its
weight and its weighted adjacency list. -/

structure WGraph where
  nodes : List (ℕ × List (ℕ × ℕ))
deriving DecidableEq

/-- Number of nodes (`Graph::num_nodes`). -/

def numNodes (g : WGraph) : ℕ :=
  g.nodes.length

/-- Weight of a node (`Graph::weight`). -/

def nodeWeight (g : WGraph) (v : ℕ) : ℕ :=
  (g.nodes.getD v (0, [])).1

/-- Weighted adjacency of a node (`Graph::wedges(node)`): the list of
`(neighbor, edge weight)` pairs. -/

def wedgesOf (g : WGraph) (v : ℕ) : List (ℕ × ℕ) :=
  (g.nodes.getD v (0, [])).2

/-- All unique unordered weighted edges `(a, b, w)` with `a < b`
(`Graph::wedges()`). -/

def wedgesAll (g : WGraph) : List (ℕ × ℕ × ℕ) :=
  (List.range (numNodes g)).flatMap
    (fun a => (wedgesOf g a).filterMap
      (fun bw => if a < bw.1 then some (a, bw.1, bw.2) else none))

/-- Well-formedness of a graph, per the invariants of spec section 3:
neighbor ids are in range and there are no self-loops. -/

def GraphWF (g : WGraph) : Prop :=
  ∀ v, v < numNodes g → ∀ bw ∈ wedgesOf g v, bw.1 < numNodes g ∧ bw.1 ≠ v

/-- The matching state shared by `CoarsenHEM::operator()` and
`CoarsenGEM::operator()`: `fine_to_coarse` (with `none` for the npos
sentinel), `coarse_to_fine`, and the `coarse_node` counter. -/

structure MatchState where
  f2c : List (Option ℕ)
  c2f : List ℕ
  next : ℕ
deriving DecidableEq

/-- Reads `fine_to_coarse[v]` (out-of-range reads yield the sentinel). -/

def keyOf (f2c : List (Option ℕ)) (v : ℕ) : Option ℕ :=
  f2c.getD v none

/-- Whether a fine node is already matched
(`fine_to_coarse[v] != npos`). -/

def assignedB (st : MatchState) (v : ℕ) : Bool :=
  (keyOf st.f2c v).isSome

/-- Maps a fine node to a fresh coarse node: `fine_to_coarse[a] =
coarse_node; coarse_to_fine.push_back(a); coarse_node += 1`. -/

def pushOne (st : MatchState) (a : ℕ) : MatchState :=
  ⟨st.f2c.set a (some st.next), st.c2f ++ [a], st.next + 1⟩

/-- The empty matching state over `n` fine nodes. -/

def initMatch (n : ℕ) : MatchState :=
  ⟨List.replicate n none, [], 0⟩

/-- Modelled from the spec: `greater_or(a, b, t)` (absent
`tit/core/utils.hpp`) — compare by `>` falling back to the tie value. -/

def greaterOr (a b : ℕ) (t : Bool) : Bool :=
  decide (b < a) || (a == b && t)

/-- Modelled from the spec: `less_or(a, b, t)` — compare by `<` falling
back to the tie value. -/

def lessOr (a b : ℕ) (t : Bool) : Bool :=
  decide (a < b) || (a == b && t)

/-- The node weight read by the HEM tie-break for the current best
neighbor; reading the weight of the initial `npos` sentinel is modelled
as the default weight `0` (it can only influence the result when an
edge weight equals the initial `best_edge_weight = 0`). -/

def weightOrDefault (g : WGraph) (b : Option ℕ) : ℕ :=
  match b with
  | some v => nodeWeight g v
  | none => 0

/-- The HEM sort key: `(weight(node), randomized_hash(node))`,
ascending. The randomized hash (absent `rand_utils.hpp`) is a model
parameter. -/

def hemKey (g : WGraph) (hashN : ℕ → ℕ) (v : ℕ) : ℕ × ℕ :=
  (nodeWeight g v, hashN v)

/-- Ascending lexicographic comparison on pairs, as imposed by
`std::less` on the HEM key tuple. -/

def le2 (x y : ℕ × ℕ) : Bool :=
  decide (x.1 < y.1) || (x.1 == y.1 && decide (x.2 ≤ y.2))

/-- The node traversal order of `CoarsenHEM`: all fine nodes sorted by
`(weight, hash)` ascending (`par::sort(fine_nodes, std::less{}, ...)`). -/

def hemOrder (g : WGraph) (hashN : ℕ → ℕ) : List ℕ :=
  List.insertionSort (fun u v => le2 (hemKey g hashN u) (hemKey g hashN v) = true)
    (List.range (numNodes g))

/-- The best-unmatched-neighbor scan of `CoarsenHEM`: the previously
unmatched neighbor with the highest edge weight, ties broken by
`less_or` on node weights with a random fallback (the stateful
`SplitMix64` draw is abstracted as the parameter `rng`). -/

def hemBest (g : WGraph) (rng : ℕ → ℕ → Bool) (f2c : List (Option ℕ)) (a : ℕ) :
    Option ℕ :=
  ((wedgesOf g a).foldl
    (fun best bw =>
      if (keyOf f2c bw.1).isSome then best
      else if greaterOr bw.2 best.2
          (lessOr (nodeWeight g bw.1) (weightOrDefault g best.1) (rng a bw.1))
        then (some bw.1, bw.2) else best)
    ((none : Option ℕ), 0)).1

/-- One iteration of the HEM node loop. An unmatched node is mapped to a
fresh coarse node; if a best unmatched neighbor exists, it is then
mapped to the *already incremented* counter without a further increment,
exactly as in the source (`fine_to_coarse[best_neighbor] = coarse_node`
after `coarse_node += 1`). -/

def hemVisit (g : WGraph) (rng : ℕ → ℕ → Bool) (st : MatchState) (a : ℕ) :
    MatchState :=
  if assignedB st a then st
  else
    match hemBest g rng (pushOne st a).f2c a with
    | none => pushOne st a
    | some b =>
        ⟨(pushOne st a).f2c.set b (some (pushOne st a).next),
         (pushOne st a).c2f ++ [b], (pushOne st a).next⟩

/-- The full HEM matching pass (`CoarsenHEM::operator()` up to the
coarse-graph assembly). -/

def hemMatch (g : WGraph) (hashN : ℕ → ℕ) (rng : ℕ → ℕ → Bool) : MatchState :=
  (hemOrder g hashN).foldl (hemVisit g rng) (initMatch (numNodes g))

/-- The GEM sort key of a wedge `(a, b, w)`, read off the source
projection: `{edge_weight, min(weight(fine_neighbor),
weight(fine_node)), randomized_hash(fine_neighbor, fine_node)}`. -/

def gemKey (g : WGraph) (hashE : ℕ → ℕ → ℕ) (e : ℕ × ℕ × ℕ) : ℕ × ℕ × ℕ :=
  (e.2.2, min (nodeWeight g e.2.1) (nodeWeight g e.1), hashE e.2.1 e.1)

/-- Descending lexicographic comparison on key triples, as imposed by
`std::greater` on the GEM key tuple: *all three* components compare
descending. -/

def ge3 (x y : ℕ × ℕ × ℕ) : Bool :=
  decide (y.1 < x.1) ||
    (x.1 == y.1 &&
      (decide (y.2.1 < x.2.1) || (x.2.1 == y.2.1 && decide (y.2.2 ≤ x.2.2))))

/-- The comparison the specification (and the source's own comment)
prescribes for GEM: edge weight descending, then the minimum endpoint
node weight *ascending*, then the hash. -/

def specGe3 (x y : ℕ × ℕ × ℕ) : Bool :=
  decide (y.1 < x.1) ||
    (x.1 == y.1 &&
      (decide (x.2.1 < y.2.1) || (x.2.1 == y.2.1 && decide (y.2.2 ≤ x.2.2))))

/-- The edge traversal order of `CoarsenGEM` as implemented:
`par::sort(fine_edges, std::greater{}, key)`. -/

def gemOrder (g : WGraph) (hashE : ℕ → ℕ → ℕ) : List (ℕ × ℕ × ℕ) :=
  List.insertionSort (fun e1 e2 => ge3 (gemKey g hashE e1) (gemKey g hashE e2) = true)
    (wedgesAll g)

/-- The edge traversal order the specification prescribes for GEM
(minimum endpoint weight ascending among equal edge weights). -/

def specGemOrder (g : WGraph) (hashE : ℕ → ℕ → ℕ) : List (ℕ × ℕ × ℕ) :=
  List.insertionSort
    (fun e1 e2 => specGe3 (gemKey g hashE e1) (gemKey g hashE e2) = true)
    (wedgesAll g)

/-- One iteration of the GEM edge loop: merge both endpoints into one
fresh coarse node iff both are still unmatched. -/

def gemStepEdge (st : MatchState) (e : ℕ × ℕ × ℕ) : MatchState :=
  if assignedB st e.1 || assignedB st e.2.1 then st
  else
    ⟨(st.f2c.set e.1 (some st.next)).set e.2.1 (some st.next),
     st.c2f ++ [e.1, e.2.1], st.next + 1⟩

/-- One iteration of the GEM leftover loop: an unmatched node becomes a
singleton coarse node. -/

def gemStepNode (st : MatchState) (v : ℕ) : MatchState :=
  if assignedB st v then st else pushOne st v

/-- The full GEM matching pass over a given edge order, followed by the
leftover-singleton loop over all nodes. -/

def gemMatchOn (g : WGraph) (order : List (ℕ × ℕ × ℕ)) : MatchState :=
  (List.range (numNodes g)).foldl gemStepNode
    (order.foldl gemStepEdge (initMatch (numNodes g)))

/-- `CoarsenGEM::operator()` up to the coarse-graph assembly. -/

def gemMatch (g : WGraph) (hashE : ℕ → ℕ → ℕ) : MatchState :=
  gemMatchOn g (gemOrder g hashE)

/-- The GEM matching pass run on the specification's edge order. -/

def specGemMatch (g : WGraph) (hashE : ℕ → ℕ → ℕ) : MatchState :=
  gemMatchOn g (specGemOrder g hashE)

/-- Modelled from the spec: `equality_ranges` (absent from the source
tree) groups consecutive runs of elements with equal projection; here
the projection is `fine_to_coarse[·]`, applied to `coarse_to_fine`. -/

def equalityRanges (f2c : List (Option ℕ)) : List ℕ → List (List ℕ)
  | [] => []
  | a :: rest =>
      (a :: rest.takeWhile (fun b => keyOf f2c b == keyOf f2c a)) ::
        equalityRanges f2c (rest.dropWhile (fun b => keyOf f2c b == keyOf f2c a))
termination_by l => l.length
decreasing_by
  simp only [List.length_cons]
  exact Nat.lt_succ_of_le (List.dropWhile_sublist _).length_le

/-- Accumulation into a small flat map:
`coarse_neighbors[coarse_neighbor] += fine_edge_weight`
(insertion-ordered). -/

def mapAdd (m : List (ℕ × ℕ)) (k w : ℕ) : List (ℕ × ℕ) :=
  if m.any (fun kv => kv.1 == k) then
    m.map (fun kv => if kv.1 == k then (kv.1, kv.2 + w) else kv)
  else m ++ [(k, w)]

/-- The aggregated coarse neighbor map of one group of fine nodes
(`impl::build_coarse_graph`, inner loops). -/

def coarseNeighbors (g : WGraph) (f2c : List (Option ℕ)) (grp : List ℕ) :
    List (ℕ × ℕ) :=
  grp.foldl
    (fun m v => (wedgesOf g v).foldl
      (fun m bw => mapAdd m ((keyOf f2c bw.1).getD 0) bw.2) m) []

/-- `impl::build_coarse_graph`: one coarse node per equality range of
`coarse_to_fine` under `fine_to_coarse[·]`, carrying the summed fine
weights and the aggregated neighbor map. -/

def buildCoarse (g : WGraph) (f2c : List (Option ℕ)) (c2f : List ℕ) : WGraph :=
  ⟨(equalityRanges f2c c2f).map
    (fun grp => ((grp.map (nodeWeight g)).sum, coarseNeighbors g f2c grp))⟩

/-- The largest assigned coarse id, `max(fine_to_coarse)` over the
assigned entries. -/

def maxAssigned (f2c : List (Option ℕ)) : ℕ :=
  (f2c.filterMap id).foldl max 0

/-! ### Multilevel partitioner

Embeds `MultilevelPartition::operator()` (partition/multilevel.hpp) over
abstract coarsening, coarsest-partition and refinement functions (its
template parameters). -/

/-- Projection of a coarse partition back to the fine graph:
`fine_parts[i] = coarse_parts[fine_to_coarse[i]]`
(`std::ranges::copy(permuted_view(coarse_parts, fine_to_coarse), ...)`). -/

def projectParts (coarseParts : List ℕ) (f2c : List ℕ) : List ℕ :=
  f2c.map (fun c => coarseParts.getD c 0)

/-- The recursive lambda of `MultilevelPartition::operator()`: coarsen;
if the coarse graph has at most `15 * num_parts` nodes or has at least
`8/10` of the fine node count (coarsening stalled), partition it with
the coarsest partitioner, else recurse; then project the coarse parts
back through `fine_to_coarse` and refine. -/

def mlPartition (coarsen : WGraph → WGraph × List ℕ)
    (coarsest : WGraph → ℕ → List ℕ)
    (refine : WGraph → List ℕ → ℕ → List ℕ) (K : ℕ) : WGraph → List ℕ :=
  fun g =>
    if h : numNodes (coarsen g).1 ≤ 15 * K ∨
        10 * numNodes (coarsen g).1 ≥ 8 * numNodes g then
      refine g (projectParts (coarsest (coarsen g).1 K) (coarsen g).2) K
    else
      refine g
        (projectParts (mlPartition coarsen coarsest refine K (coarsen g).1)
          (coarsen g).2) K
termination_by g => numNodes g
decreasing_by
  push_neg at h
  omega

/-! ### Coarsening invariants (claim C9)

The key bookkeeping fact about both matching passes: `coarse_to_fine`
decomposes into consecutive nonempty blocks, one per coarse id
`0, …, K-1`, such that the fine nodes of block `i` are exactly the ones
mapped to `i`. In HEM the best-neighbor assignment uses the already
incremented counter without a further increment, so between iterations
the block count `K` may exceed the counter by one; both shapes are
carried in the invariant. -/

/-- Decomposition of `coarse_to_fine` into the per-coarse-id blocks. -/

def BlocksOf (f2c : List (Option ℕ)) (c2f : List ℕ) (K : ℕ) (B : ℕ → List ℕ) :
    Prop :=
  c2f = (List.range K).flatMap B ∧
  (∀ i, i < K → B i ≠ []) ∧
  (∀ i, i < K → ∀ v ∈ B i, keyOf f2c v = some i) ∧
  (∀ v k, keyOf f2c v = some k → k < K ∧ v ∈ B k)

/-- The loop invariant of both matching passes. -/

def matchInv (n : ℕ) (st : MatchState) : Prop :=
  st.f2c.length = n ∧
  ∃ K B, BlocksOf st.f2c st.c2f K B ∧ (K = st.next ∨ K = st.next + 1)

/-- The consistency facts claim C9 states about a finished matching
pass. -/

def coarsenOK (g : WGraph) (st : MatchState) : Prop :=
  (∀ v, v < numNodes g → ((keyOf st.f2c v).isSome : Prop)) ∧
  maxAssigned st.f2c + 1 = numNodes (buildCoarse g st.f2c st.c2f) ∧
  (∀ v k, v < numNodes g → keyOf st.f2c v = some k →
    v ∈ (equalityRanges st.f2c st.c2f).getD k [])

theorem detFirst_zero (N T : ℕ) : detFirst N T 0 = 0 := by
  simp [detFirst]

theorem detFirst_mono (N T t : ℕ) : detFirst N T t ≤ detFirst N T (t + 1) := by
  unfold detFirst
  have h1 : t * (N / T) ≤ (t + 1) * (N / T) :=
    Nat.mul_le_mul_right _ (Nat.le_succ t)
  have h2 : min t (N % T) ≤ min (t + 1) (N % T) :=
    min_le_min (Nat.le_succ t) le_rfl
  omega

theorem detFirst_last (N T : ℕ) (hT : 0 < T) : detFirst N T T = N := by
  unfold detFirst
  have hmod : N % T < T := Nat.mod_lt _ hT
  have hdm : T * (N / T) + N % T = N := Nat.div_add_mod N T
  have hmin : min T (N % T) = N % T := min_eq_right (Nat.le_of_lt hmod)
  rw [hmin]
  exact hdm

theorem detChunk_size (N T t : ℕ) (_hT : 0 < T) :
    (detChunk N T t).length =
      N / T + (if t < N % T then 1 else 0) := by
  unfold detChunk detFirst
  rw [List.length_range']
  have h2 : (t + 1) * (N / T) = t * (N / T) + N / T := by ring
  rw [h2]
  generalize t * (N / T) = A
  generalize N / T = q
  generalize N % T = r
  rcases Nat.lt_or_ge t r with h | h
  · rw [if_pos h]
    omega
  · rw [if_neg (by omega)]
    omega

theorem detChunks_flatten (N T : ℕ) (hT : 0 < T) :
    (detChunks N T).flatten = List.range N := by
  have key : ∀ t : ℕ, ((List.range t).map (detChunk N T)).flatten =
      List.range' 0 (detFirst N T t) := by
    intro t
    induction t with
    | zero => simp [detFirst_zero]
    | succ t ih =>
      rw [List.range_succ, List.map_append, List.flatten_append, ih]
      have hle := detFirst_mono N T t
      have : detFirst N T t + (detFirst N T (t + 1) - detFirst N T t) =
          detFirst N T (t + 1) := by omega
      simp only [List.map_cons, List.map_nil, List.flatten_cons,
        List.flatten_nil, List.append_nil, detChunk]
      calc List.range' 0 (detFirst N T t) ++
            List.range' (detFirst N T t)
              (detFirst N T (t + 1) - detFirst N T t)
          = List.range' 0
              ((detFirst N T (t + 1) - detFirst N T t) + detFirst N T t) := by
            rw [← List.range'_append 0 (detFirst N T t) _ 1]
            simp
        _ = List.range' 0 (detFirst N T (t + 1)) := by
            rw [Nat.sub_add_cancel hle]
  unfold detChunks
  rw [key T, detFirst_last N T hT, List.range_eq_range']

theorem mem_detChunk_iff (N T t e : ℕ) :
    e ∈ detChunk N T t ↔ detFirst N T t ≤ e ∧ e < detFirst N T (t + 1) := by
  unfold detChunk
  rw [List.mem_range']
  have hle := detFirst_mono N T t
  constructor
  · rintro ⟨i, hi, rfl⟩
    omega
  · intro ⟨h1, h2⟩
    exact ⟨e - detFirst N T t, by omega, by omega⟩

theorem detFirst_mono_le (N T : ℕ) {s t : ℕ} (h : s ≤ t) :
    detFirst N T s ≤ detFirst N T t := by
  induction t with
  | zero => simp [Nat.le_zero.mp h]
  | succ t ih =>
    rcases Nat.lt_or_ge s (t + 1) with hs | hs
    · exact le_trans (ih (by omega)) (detFirst_mono N T t)
    · have : s = t + 1 := by omega
      simp [this]

/-- Claim C8: `deterministic_for_each` splits the input into exactly `T`
contiguous chunks of sizes `⌊N/T⌋` or `⌈N/T⌉` that tile `[0, N)` in
order, invokes the body on each element paired with its chunk's thread
index, and the element-to-thread mapping is a pure function of `(N, T)`
(each element belongs to exactly one thread's chunk). -/

theorem deterministic_for_each_chunks (N T : ℕ) (hT : 0 < T) :
    (detChunks N T).length = T ∧
    (detChunks N T).flatten = List.range N ∧
    (∀ c ∈ detChunks N T, c.length = N / T ∨ c.length = (N + T - 1) / T) ∧
    (∀ e t, (e, t) ∈ detInvocations N T ↔ t < T ∧ e ∈ detChunk N T t) ∧
    (∀ e, e < N → ∃! t, t < T ∧ e ∈ detChunk N T t) := by
  refine ⟨by simp [detChunks], detChunks_flatten N T hT, ?_, ?_, ?_⟩
  · -- chunk sizes are the floor or the ceiling of `N / T`
    intro c hc
    rcases List.mem_map.mp hc with ⟨t, _, rfl⟩
    rw [detChunk_size N T t hT]
    have hmod : N % T < T := Nat.mod_lt _ hT
    have hdm : T * (N / T) + N % T = N := Nat.div_add_mod N T
    have h3 : T * (N / T + 1) = T * (N / T) + T := by ring
    rcases Nat.lt_or_ge t (N % T) with h | h
    · right
      have hr : 0 < N % T := by omega
      have hceil : (N + T - 1) / T = N / T + 1 := by
        have hsum : N + T - 1 = T * (N / T + 1) + (N % T - 1) := by omega
        rw [hsum, Nat.mul_add_div hT]
        have : (N % T - 1) / T = 0 := Nat.div_eq_of_lt (by omega)
        omega
      rw [if_pos h, hceil]
    · left
      rw [if_neg (by omega)]
      omega
  · -- the invocation log pairs each element with its chunk's thread
    intro e t
    unfold detInvocations
    simp only [List.mem_flatMap, List.mem_map, List.mem_range]
    constructor
    · rintro ⟨t', ht', e', he', h⟩
      obtain ⟨rfl, rfl⟩ : e' = e ∧ t' = t := by
        exact ⟨congrArg Prod.fst h, congrArg Prod.snd h⟩
      exact ⟨ht', he'⟩
    · rintro ⟨ht, he⟩
      exact ⟨t, ht, e, he, rfl⟩
  · -- each element index is claimed by exactly one thread
    intro e he
    have hmem : e ∈ (detChunks N T).flatten := by
      rw [detChunks_flatten N T hT]; exact List.mem_range.mpr he
    rcases List.mem_flatten.mp hmem with ⟨c, hc, hec⟩
    rcases List.mem_map.mp hc with ⟨t, ht, rfl⟩
    refine ⟨t, ⟨List.mem_range.mp ht, hec⟩, ?_⟩
    rintro t' ⟨ht', he'⟩
    by_contra hne
    rw [mem_detChunk_iff] at hec he'
    rcases Nat.lt_or_ge t' t with hlt | hge
    · have := detFirst_mono_le N T (show t' + 1 ≤ t by omega)
      omega
    · have htt : t < t' := by omega
      have := detFirst_mono_le N T (show t + 1 ≤ t' by omega)
      omega

/-- Witness for C8 at `N = 10`, `T = 4` (the unit test's configuration,
whose expected thread distribution is `0,0,0,1,1,1,2,2,3,3`). -/

theorem deterministic_for_each_chunks_witness :
    0 < 4 ∧
    ((detChunks 10 4).length = 4 ∧
     (detChunks 10 4).flatten = List.range 10 ∧
     (∀ c ∈ detChunks 10 4, c.length = 10 / 4 ∨ c.length = (10 + 4 - 1) / 4) ∧
     (∀ e t, (e, t) ∈ detInvocations 10 4 ↔ t < 4 ∧ e ∈ detChunk 10 4 t) ∧
     (∀ e, e < 10 → ∃! t, t < 4 ∧ e ∈ detChunk 10 4 t)) :=
  ⟨by decide, deterministic_for_each_chunks 10 4 (by decide)⟩

theorem chunkGo_fuel_eq_aux (T : ℕ) :
    ∀ (n : ℕ) (l : List α), l.length ≤ n → ∀ f1 f2 : ℕ, l.length ≤ f1 → l.length ≤ f2 →
      chunkGo T f1 l = chunkGo T f2 l := by
  intro n
  induction n with
  | zero =>
    intro l hl f1 f2 _ _
    have : l = [] := List.length_eq_zero.mp (Nat.le_zero.mp hl)
    subst this
    cases f1 <;> cases f2 <;> rfl
  | succ n ih =>
    intro l hl f1 f2 h1 h2
    cases l with
    | nil => cases f1 <;> cases f2 <;> rfl
    | cons x xs =>
      simp only [List.length_cons] at hl h1 h2
      obtain ⟨f1', rfl⟩ : ∃ k, f1 = k + 1 := ⟨f1 - 1, by omega⟩
      obtain ⟨f2', rfl⟩ : ∃ k, f2 = k + 1 := ⟨f2 - 1, by omega⟩
      simp only [chunkGo]
      congr 1
      have hd : (xs.drop (T - 1)).length ≤ xs.length := by
        rw [List.length_drop]; omega
      exact ih _ (by omega) _ _ (by omega) (by omega)

theorem chunkGo_fuel_eq (T : ℕ) (l : List α) (f1 f2 : ℕ)
    (h1 : l.length ≤ f1) (h2 : l.length ≤ f2) :
    chunkGo T f1 l = chunkGo T f2 l :=
  chunkGo_fuel_eq_aux T l.length l le_rfl f1 f2 h1 h2

theorem chunkList_cons (T : ℕ) (x : α) (xs : List α) :
    chunkList T (x :: xs) =
      (x :: xs.take (T - 1)) :: chunkList T (xs.drop (T - 1)) := by
  unfold chunkList
  simp only [List.length_cons, chunkGo]
  congr 1
  have hd : (xs.drop (T - 1)).length ≤ xs.length := by
    rw [List.length_drop]; omega
  exact chunkGo_fuel_eq T _ _ _ hd le_rfl

theorem chunkList_flatten_aux (T : ℕ) :
    ∀ (n : ℕ) (l : List α), l.length ≤ n → (chunkList T l).flatten = l := by
  intro n
  induction n with
  | zero =>
    intro l hl
    have : l = [] := List.length_eq_zero.mp (Nat.le_zero.mp hl)
    subst this
    rfl
  | succ n ih =>
    intro l hl
    cases l with
    | nil => rfl
    | cons x xs =>
      rw [chunkList_cons, List.flatten_cons]
      have hle : (xs.drop (T - 1)).length ≤ n := by
        rw [List.length_drop]
        simp only [List.length_cons] at hl
        omega
      rw [ih _ hle]
      simp [List.cons_append, List.take_append_drop]

theorem chunkList_flatten (T : ℕ) (l : List α) : (chunkList T l).flatten = l :=
  chunkList_flatten_aux T l.length l le_rfl

theorem chunkList_mem_length_le_aux (T : ℕ) (hT : 0 < T) :
    ∀ (n : ℕ) (l : List α), l.length ≤ n →
      ∀ c ∈ chunkList T l, c ≠ [] ∧ c.length ≤ T := by
  intro n
  induction n with
  | zero =>
    intro l hl c hc
    have : l = [] := List.length_eq_zero.mp (Nat.le_zero.mp hl)
    subst this
    simp [chunkList, chunkGo] at hc
  | succ n ih =>
    intro l hl c hc
    cases l with
    | nil => simp [chunkList, chunkGo] at hc
    | cons x xs =>
      rw [chunkList_cons] at hc
      rcases List.mem_cons.mp hc with rfl | hc
      · refine ⟨by simp, ?_⟩
        have : (xs.take (T - 1)).length ≤ T - 1 := by
          rw [List.length_take]; omega
        simp only [List.length_cons]
        omega
      · have hle : (xs.drop (T - 1)).length ≤ n := by
          rw [List.length_drop]
          simp only [List.length_cons] at hl
          omega
        exact ih _ hle c hc

theorem chunkList_mem_length_le (T : ℕ) (hT : 0 < T)
    (l : List α) (c : List α) (hc : c ∈ chunkList T l) : c ≠ [] ∧ c.length ≤ T :=
  chunkList_mem_length_le_aux T hT l.length l le_rfl c hc

/-- Counterexample to claim C5: with two single-element outer ranges and
two threads, `block_for_each` runs the two outer ranges as parallel
tasks of a single phase, which is not the claimed schedule (outer
elements sequential, inner elements parallel). -/

theorem block_for_each_not_outer_sequential :
    blockForEachPhases 2 [[0], [1]] = [[[0], [1]]] ∧
    outerSeqInnerParPhases [[0], [1]] = [[[0]], [[1]]] ∧
    blockForEachPhases 2 [[0], [1]] ≠ outerSeqInnerParPhases [[0], [1]] := by
  refine ⟨rfl, rfl, ?_⟩
  decide

/-- Claim C5, amended: `block_for_each` cuts the outer ranges into
consecutive chunks of `num_threads()` outer ranges; the chunks are
iterated sequentially, the outer ranges within one chunk are iterated in
parallel (each as one task), and the inner elements of each outer range
are iterated sequentially by its task. Every outer range appears as
exactly one task, in order, and each phase holds at most `num_threads()`
nonempty task groups. -/

theorem block_for_each_chunked (T : ℕ) (rs : List (List ℕ)) (hT : 0 < T) :
    (blockForEachPhases T rs).flatten = rs ∧
    (∀ phase ∈ blockForEachPhases T rs, phase ≠ [] ∧ phase.length ≤ T) := by
  exact ⟨chunkList_flatten T rs, fun phase hp =>
    chunkList_mem_length_le T hT rs phase hp⟩

/-- Witness for the amended C5 on the unit test's data
(`{{0,1},{2,3},{4,5},{6,7},{8,9}}` with 4 threads). -/

theorem block_for_each_chunked_witness :
    0 < 4 ∧
    ((blockForEachPhases 4 [[0, 1], [2, 3], [4, 5], [6, 7], [8, 9]]).flatten =
        [[0, 1], [2, 3], [4, 5], [6, 7], [8, 9]] ∧
     (∀ phase ∈ blockForEachPhases 4 [[0, 1], [2, 3], [4, 5], [6, 7], [8, 9]],
        phase ≠ [] ∧ phase.length ≤ 4)) :=
  ⟨by decide, block_for_each_chunked 4 [[0, 1], [2, 3], [4, 5], [6, 7], [8, 9]] (by decide)⟩

/-! ### Neighbor-search theorems (claims C3, C4) -/

theorem mem_gridSearch (pos : List (List R)) (p : List R) (r : R) (j : ℕ) :
    j ∈ gridSearch pos p r ↔
      j < pos.length ∧ dist2 (pos.getD j []) p ≤ r * r := by
  unfold gridSearch
  rw [List.mem_filter, List.mem_range, decide_eq_true_eq]

theorem gridSearch_nodup (pos : List (List R)) (p : List R) (r : R) :
    (gridSearch pos p r).Nodup :=
  (List.nodup_range _).filter _

theorem sortIds_perm (l : List ℕ) : (sortIds l).Perm l :=
  List.perm_insertionSort _ l

theorem sortIds_sorted_lt (l : List ℕ) (hl : l.Nodup) :
    List.Sorted (fun a b => a < b) (sortIds l) := by
  have hs : List.Sorted (fun a b => a ≤ b) (sortIds l) :=
    List.sorted_insertionSort _ l
  exact List.Sorted.lt_of_le hs ((sortIds_perm l).symm.nodup hl)

theorem dist2_self (p : List R) : dist2 p p = 0 := by
  unfold dist2
  induction p with
  | nil => rfl
  | cons a as ih => simp [List.zipWith, ih]

theorem neighborsOf_eq (pos : List (List R)) (radius : ℕ → R) (i : ℕ)
    (hi : i < pos.length) :
    neighborsOf pos radius i =
      sortIds (gridSearch pos (pos.getD i []) (radius i)) := by
  unfold neighborsOf searchAdjacency
  rw [List.getD_eq_getElem?_getD, List.getElem?_map, List.getElem?_range hi]
  rfl

/-- Claim C3, amended: after the search phase, with a positive radius for
every particle, each neighbor list is strictly ascending and every
neighbor is within the query radius of the particle; but the particle
itself is always a member of its own list (the grid search reports every
id within the radius of the query point, and the query point is the
particle's own position at distance zero), so the claimed `j ≠ i` fails. -/

theorem neighbors_sorted_within_radius (pos : List (List R)) (radius : ℕ → R)
    (i : ℕ) (hi : i < pos.length)
    (hr : ∀ j, j < pos.length → 0 < radius j) :
    List.Sorted (fun a b => a < b) (neighborsOf pos radius i) ∧
    (∀ j ∈ neighborsOf pos radius i,
      j < pos.length ∧
      dist2 (pos.getD j []) (pos.getD i []) ≤ radius i * radius i) ∧
    i ∈ neighborsOf pos radius i := by
  rw [neighborsOf_eq pos radius i hi]
  refine ⟨sortIds_sorted_lt _ (gridSearch_nodup pos _ _), ?_, ?_⟩
  · intro j hj
    have hj' : j ∈ gridSearch pos (pos.getD i []) (radius i) :=
      (sortIds_perm _).mem_iff.mp hj
    exact (mem_gridSearch pos _ _ j).mp hj'
  · refine (sortIds_perm _).mem_iff.mpr ?_
    refine (mem_gridSearch pos _ _ i).mpr ⟨hi, ?_⟩
    rw [dist2_self]
    exact le_of_lt (mul_pos (hr i hi) (hr i hi))

/-- Counterexample to claim C3 as stated: a single particle at the
origin with radius `1 > 0` is reported as its own neighbor, violating
`j ≠ i`. -/

theorem neighbors_self_member_counterexample :
    (0 : ℤ) < 1 ∧ 0 ∈ neighborsOf [[(0 : ℤ)]] (fun _ => 1) 0 := by
  constructor
  · decide
  · decide

/-- Witness for the amended C3 on two integer particles at `x = 0, 1`
with radius `1`. -/

theorem neighbors_sorted_within_radius_witness :
    (0 < [[(0 : ℤ)], [1]].length ∧
     ∀ j, j < [[(0 : ℤ)], [1]].length → (0 : ℤ) < 1) ∧
    (List.Sorted (fun a b => a < b)
        (neighborsOf [[(0 : ℤ)], [1]] (fun _ => 1) 0) ∧
     (∀ j ∈ neighborsOf [[(0 : ℤ)], [1]] (fun _ => 1) 0,
        j < [[(0 : ℤ)], [1]].length ∧
        dist2 ([[(0 : ℤ)], [1]].getD j []) ([[(0 : ℤ)], [1]].getD 0 []) ≤
          (1 : ℤ) * 1) ∧
     0 ∈ neighborsOf [[(0 : ℤ)], [1]] (fun _ => 1) 0) :=
  ⟨⟨by decide, fun j _ => zero_lt_one⟩,
   neighbors_sorted_within_radius [[(0 : ℤ)], [1]] (fun _ => 1) 0 (by decide)
     (fun j _ => zero_lt_one)⟩

theorem interpNeighborsOf_eq (pos : List (List R)) (fixed : List Bool)
    (radius : ℕ → R) (lo hi : List R) (i a : ℕ)
    (ha : (fixedIdx fixed)[i]? = some a) :
    interpNeighborsOf pos fixed radius lo hi i =
      sortIds ((gridSearch pos (mirrorPoint lo hi (pos.getD a []))
        (3 * radius a)).filter (fun b => ! fixed.getD b false)) := by
  unfold interpNeighborsOf interpAdjacency
  rw [List.getD_eq_getElem?_getD, List.getElem?_map, ha]
  rfl

/-- Claim C4: after the interpolation search, the neighbor list of the
`i`-th fixed particle `a` is strictly ascending and contains exactly the
particle indices within `3 * radius_func(a)` of the mirror point
`2 * clamp(r_a, Domain) - r_a` that are not fixed; in particular every
member is a non-fixed particle. -/

theorem interp_neighbors_spec (pos : List (List R)) (fixed : List Bool)
    (radius : ℕ → R) (lo hi : List R) (i a : ℕ)
    (ha : (fixedIdx fixed)[i]? = some a) :
    List.Sorted (fun x y => x < y) (interpNeighborsOf pos fixed radius lo hi i) ∧
    (∀ j, j ∈ interpNeighborsOf pos fixed radius lo hi i ↔
      j < pos.length ∧
      dist2 (pos.getD j []) (mirrorPoint lo hi (pos.getD a [])) ≤
        (3 * radius a) * (3 * radius a) ∧
      fixed.getD j false = false) := by
  rw [interpNeighborsOf_eq pos fixed radius lo hi i a ha]
  constructor
  · exact sortIds_sorted_lt _ ((gridSearch_nodup pos _ _).filter _)
  · intro j
    rw [(sortIds_perm _).mem_iff, List.mem_filter, mem_gridSearch,
      Bool.not_eq_eq_eq_not, Bool.not_true]
    tauto

/-- Witness for C4: domain `[0, 4]`, a fixed particle at `x = -1`
(mirror point `1`) and a fluid particle at `x = 2` within `3 * 1` of the
mirror point. -/

theorem interp_neighbors_spec_witness :
    ((fixedIdx [true, false])[0]? = some 0) ∧
    (List.Sorted (fun x y => x < y)
        (interpNeighborsOf [[(-1 : ℤ)], [2]] [true, false] (fun _ => 1)
          [0] [4] 0) ∧
     (∀ j, j ∈ interpNeighborsOf [[(-1 : ℤ)], [2]] [true, false] (fun _ => 1)
          [0] [4] 0 ↔
        j < [[(-1 : ℤ)], [2]].length ∧
        dist2 ([[(-1 : ℤ)], [2]].getD j [])
            (mirrorPoint [0] [4] ([[(-1 : ℤ)], [2]].getD 0 [])) ≤
          (3 * (1 : ℤ)) * (3 * 1) ∧
        [true, false].getD j false = false)) :=
  ⟨by decide,
   interp_neighbors_spec [[(-1 : ℤ)], [2]] [true, false] (fun _ => 1)
     [0] [4] 0 0 (by decide)⟩

/-! ### Failure-path theorems (claim C10) -/

/-- Claim C10, amended: if `radius_func` fails for some particle, the
error is propagated to the `update()` caller, but the mesh outputs are
left exactly as they were before the call (the previous step's
contents); they are not cleared. `ParticleMesh::search_` only clears and
repopulates `adjacency_`, `interp_adjacency_` and `block_edges_` after
the parallel loops succeed, so a failing loop leaves the old data in
place. -/

theorem mesh_update_failure_keeps_outputs {ε : Type} (prev : MeshState)
    (T L M : ℕ) (pos : List (List R)) (fixed : List Bool)
    (radiusE : ℕ → Except ε R) (lo hi : List R)
    (partFn : List (List R) → ℕ → List ℕ)
    (secFn : List (List R) → ℕ → ℕ → List ℕ) (e : ε)
    (h : firstRadiusErr pos.length radiusE = some e) :
    meshUpdateE prev T L M pos fixed radiusE lo hi partFn secFn =
      (prev, some e) := by
  unfold meshUpdateE
  rw [h]

/-- Witness for the amended C10. -/

theorem mesh_update_failure_keeps_outputs_witness :
    (firstRadiusErr (R := ℤ) 1 (fun _ => Except.error 0) = some 0) ∧
    meshUpdateE (⟨[[0]], [], [], []⟩ : MeshState) 1 2 4 [[(0 : ℤ)]] [false]
        (fun _ => Except.error 0) [0] [1] (fun _ _ => [0]) (fun _ _ _ => []) =
      ((⟨[[0]], [], [], []⟩ : MeshState), some 0) :=
  ⟨by decide,
   mesh_update_failure_keeps_outputs (⟨[[0]], [], [], []⟩ : MeshState) 1 2 4
     [[(0 : ℤ)]] [false] (fun _ => Except.error 0) [0] [1] (fun _ _ => [0])
     (fun _ _ _ => []) 0 (by decide)⟩

/-- Counterexample to claim C10 as stated: a mesh whose previous update
left a nonempty adjacency, hit by a failing `radius_func`, reports the
error but keeps the old nonempty outputs — they are not in a cleared,
empty state. -/

theorem mesh_update_failure_not_cleared_counterexample :
    (meshUpdateE (⟨[[0]], [[1]], [[2]], [[(0, 1)]]⟩ : MeshState) 1 2 4
        [[(0 : ℤ)]] [false] (fun _ => (Except.error 0 : Except ℕ ℤ)) [0] [1]
        (fun _ _ => [0]) (fun _ _ _ => [])).2 = some 0 ∧
    (meshUpdateE (⟨[[0]], [[1]], [[2]], [[(0, 1)]]⟩ : MeshState) 1 2 4
        [[(0 : ℤ)]] [false] (fun _ => (Except.error 0 : Except ℕ ℤ)) [0] [1]
        (fun _ _ => [0]) (fun _ _ _ => [])).1.adjacency = [[0]] ∧
    [[0]] ≠ ([] : List (List ℕ)) := by
  refine ⟨?_, ?_, by decide⟩
  · decide
  · decide

/-! ### Block-edge theorems (claims C1, C2) -/

theorem foldl_preserves {σ β : Type} {P : σ → Prop} (f : σ → β → σ)
    (h : ∀ s x, P s → P (f s x)) :
    ∀ (l : List β) (s : σ), P s → P (l.foldl f s) := by
  intro l
  induction l with
  | nil => intro s hs; exact hs
  | cons x xs ih => intro s hs; exact ih _ (h s x hs)

theorem getD_set_length_le {M : ℕ} {l : List (List ℕ)}
    (h : ∀ a, (l.getD a []).length ≤ M) (i : ℕ) (x : List ℕ)
    (hx : x.length ≤ M) : ∀ a, ((l.set i x).getD a []).length ≤ M := by
  intro a
  rw [List.getD_eq_getElem?_getD, List.getElem?_set]
  rcases eq_or_ne i a with rfl | hne
  · rw [if_pos rfl]
    split
    · exact hx
    · simp
  · rw [if_neg hne, ← List.getD_eq_getElem?_getD]
    exact h a

theorem writeLevel_length_le {M : ℕ} {pvs : List (List ℕ)}
    (h : ∀ a, (pvs.getD a []).length ≤ M) (level : ℕ) (targets labels : List ℕ) :
    ∀ a, ((writeLevel pvs level targets labels).getD a []).length ≤ M := by
  unfold writeLevel
  refine foldl_preserves
    (P := fun l : List (List ℕ) => ∀ a, (l.getD a []).length ≤ M)
    _ ?_ (targets.zip labels) pvs h
  intro ps al hps
  refine getD_set_length_le hps al.1 _ ?_
  rw [List.length_set]
  exact hps al.1

theorem partitionLevels_length_le (pos : List (List R)) (adj : List (List ℕ))
    (T L M : ℕ) (partFn : List (List R) → ℕ → List ℕ)
    (secFn : List (List R) → ℕ → ℕ → List ℕ) :
    ∀ a, ((partitionLevels pos adj T L M partFn secFn).getD a []).length ≤ M := by
  unfold partitionLevels
  have hinit : ∀ a,
      (((List.replicate pos.length (List.replicate M (numParts T L - 1))).getD a
        []).length) ≤ M := by
    intro a
    rw [List.getD_eq_getElem?_getD]
    rcases Nat.lt_or_ge a pos.length with ha | ha
    · rw [List.getElem?_replicate_of_lt (by simpa using ha)]
      simp
    · rw [List.getElem?_eq_none (by simpa using ha)]
      simp
  refine foldl_preserves
    (P := fun st : List (List ℕ) × List ℕ => ∀ a, (st.1.getD a []).length ≤ M)
    _ ?_ (List.range L)
    ((List.replicate pos.length (List.replicate M (numParts T L - 1))), ([] : List ℕ))
    hinit
  intro st level hst
  unfold partitionStep
  dsimp only
  split
  · split
    · exact writeLevel_length_le hst _ _ _
    · exact writeLevel_length_le hst _ _ _
  · split
    · exact writeLevel_length_le hst _ _ _
    · exact writeLevel_length_le hst _ _ _

theorem commonLen_le_length : ∀ x y : List ℕ, commonLen x y ≤ x.length := by
  intro x
  induction x with
  | nil => intro y; cases y <;> simp [commonLen]
  | cons a as ih =>
    intro y
    cases y with
    | nil => simp [commonLen]
    | cons b bs =>
      simp only [commonLen, List.length_cons]
      split
      · have := ih bs; omega
      · omega

theorem keyedEdges_key_le (adj : List (List ℕ)) (pvs : List (List ℕ)) {M : ℕ}
    (hpv : ∀ a, (pvs.getD a []).length ≤ M) :
    ∀ kv ∈ keyedEdges adj pvs, kv.1 ≤ M := by
  intro kv hkv
  rcases List.mem_map.mp hkv with ⟨ab, _, rfl⟩
  exact le_trans (commonLen_le_length _ _) (hpv ab.1)

theorem flatten_map_cons_perm {β : Type} (B k : ℕ) (hk : k < B)
    (f g : ℕ → List β) (x : β) (hout : ∀ j, j ≠ k → f j = g j)
    (hin : f k = x :: g k) :
    ((List.range B).map f).flatten.Perm (x :: ((List.range B).map g).flatten) := by
  obtain ⟨m, rfl⟩ : ∃ m, B = (k + 1) + m := ⟨B - (k + 1), by omega⟩
  rw [List.range_add, List.range_succ]
  simp only [List.map_append, List.flatten_append, List.map_cons, List.map_nil,
    List.flatten_cons, List.flatten_nil, List.append_nil, List.map_map]
  have h1 : (List.range k).map f = (List.range k).map g :=
    List.map_congr_left (fun j hj => hout j (by
      have := List.mem_range.mp hj; omega))
  have h2 : (List.range m).map (f ∘ fun x => k + 1 + x) =
      (List.range m).map (g ∘ fun x => k + 1 + x) :=
    List.map_congr_left (fun j _ => hout (k + 1 + j) (by omega))
  rw [h1, h2, hin]
  have hmid := @List.perm_middle _ x (((List.range k).map g).flatten)
    (g k ++ ((List.range m).map (g ∘ fun x => k + 1 + x)).flatten)
  simpa [List.append_assoc] using hmid

theorem assignPairsWide_flatten_perm (B : ℕ) (keyed : List (ℕ × ℕ × ℕ))
    (h : ∀ kv ∈ keyed, kv.1 < B) :
    (assignPairsWide B keyed).flatten.Perm (keyed.map (fun kv => kv.2)) := by
  induction keyed with
  | nil =>
    rw [List.flatten_eq_nil_iff.mpr]
    · simp
    · intro l hl
      rcases List.mem_map.mp hl with ⟨k, _, rfl⟩
      simp [assignPairsWide]
  | cons kv rest ih =>
    have hk : kv.1 < B := h kv (List.mem_cons_self _ _)
    have hrest : ∀ x ∈ rest, x.1 < B := fun x hx => h x (List.mem_cons_of_mem _ hx)
    unfold assignPairsWide
    refine (flatten_map_cons_perm B kv.1 hk _
      (fun k => (rest.filter (fun x => x.1 == k)).map (fun x => x.2)) kv.2
      ?_ ?_).trans ?_
    · intro j hj
      rw [List.filter_cons,
        if_neg (by simp only [beq_iff_eq]; exact fun hh => hj hh.symm)]
    · rw [List.filter_cons, if_pos (by simp)]
      rfl
    · exact (ih hrest).cons kv.2

theorem assignPairsWide_getD (B : ℕ) (keyed : List (ℕ × ℕ × ℕ)) (k : ℕ)
    (hk : k < B) :
    (assignPairsWide B keyed).getD k [] =
      (keyed.filter (fun kv => kv.1 == k)).map (fun kv => kv.2) := by
  unfold assignPairsWide
  rw [List.getD_eq_getElem?_getD, List.getElem?_map, List.getElem?_range hk]
  rfl

theorem mem_assignPairsWide_getD (B : ℕ) (keyed : List (ℕ × ℕ × ℕ)) (k : ℕ)
    (p : ℕ × ℕ) (hp : p ∈ (assignPairsWide B keyed).getD k []) :
    (k, p) ∈ keyed := by
  rcases Nat.lt_or_ge k B with hk | hk
  · rw [assignPairsWide_getD B keyed k hk] at hp
    rcases List.mem_map.mp hp with ⟨kv, hkv, rfl⟩
    rcases List.mem_filter.mp hkv with ⟨hmem, hbeq⟩
    have : kv.1 = k := by simpa using hbeq
    rcases kv with ⟨k', ab⟩
    cases this
    exact hmem
  · exfalso
    have hlen : (assignPairsWide B keyed).length = B := by
      simp [assignPairsWide]
    rw [List.getD_eq_getElem?_getD, List.getElem?_eq_none (by omega)] at hp
    simp at hp

/-- Claim C1, amended: after `ParticleMesh::update`, every pair in
bucket `k` of the block edges has `PartVec::common` of its endpoints'
part vectors equal to `k`; hence any two pairs within one bucket agree
on that common-prefix length. The claimed matching property — that two
pairs of one bucket are endpoint-disjoint or identical — does not hold
(see the counterexample), so bucket-level parallelism alone does not
rule out two tasks writing the same particle. -/

theorem block_bucket_key_consistent (T L M : ℕ) (pos : List (List R))
    (fixed : List Bool) (radius : ℕ → R) (lo hi : List R)
    (partFn : List (List R) → ℕ → List ℕ)
    (secFn : List (List R) → ℕ → ℕ → List ℕ) (k : ℕ) (p : ℕ × ℕ)
    (hp : p ∈ ((meshUpdate T L M pos fixed radius lo hi partFn secFn).blockEdges).getD k []) :
    commonLen
      (((meshUpdate T L M pos fixed radius lo hi partFn secFn).partVecs).getD p.1 [])
      (((meshUpdate T L M pos fixed radius lo hi partFn secFn).partVecs).getD p.2 []) = k := by
  simp only [meshUpdate] at hp ⊢
  have hmem := mem_assignPairsWide_getD _ _ _ _ hp
  rcases List.mem_map.mp hmem with ⟨ab, _, hab⟩
  have h1 : commonLen
      ((partitionLevels pos (searchAdjacency pos radius) T L M partFn secFn).getD ab.1 [])
      ((partitionLevels pos (searchAdjacency pos radius) T L M partFn secFn).getD ab.2 []) = k :=
    congrArg Prod.fst hab
  have h2 : ab = p := congrArg Prod.snd hab
  rw [← h2]
  exact h1

/-- Counterexample to claim C1 as stated: three collinear particles at
`x = 0, 1, 2` with radius `1`, a level-0 partition that gives each
particle its own part, and a constant secondary partition. Bucket `0`
then holds the pairs `(0, 1)` and `(1, 2)`, which are distinct yet share
particle `1` — the sets of endpoints are neither disjoint nor equal, so
concurrent traversal of bucket `0` can write particle `1` from two
threads. -/

theorem block_bucket_pairs_share_particle_counterexample :
    ¬ (∀ p ∈ ((meshUpdate 3 2 4 [[(0 : ℤ)], [1], [2]] [false, false, false]
          (fun _ => 1) [0] [3] (fun ps _ => List.range ps.length)
          (fun ps _ ip => ps.map (fun _ => ip))).blockEdges).getD 0 [],
        ∀ q ∈ ((meshUpdate 3 2 4 [[(0 : ℤ)], [1], [2]] [false, false, false]
          (fun _ => 1) [0] [3] (fun ps _ => List.range ps.length)
          (fun ps _ ip => ps.map (fun _ => ip))).blockEdges).getD 0 [],
        p = q ∨ (p.1 ≠ q.1 ∧ p.1 ≠ q.2 ∧ p.2 ≠ q.1 ∧ p.2 ≠ q.2)) := by
  decide

/-- Witness for the amended C1 on the counterexample configuration:
the pair `(0, 1)` sits in bucket `0` and the common prefix of the part
vectors of particles `0` and `1` is indeed `0`. -/

theorem block_bucket_key_consistent_witness :
    ((0, 1) ∈ ((meshUpdate 3 2 4 [[(0 : ℤ)], [1], [2]] [false, false, false]
        (fun _ => 1) [0] [3] (fun ps _ => List.range ps.length)
        (fun ps _ ip => ps.map (fun _ => ip))).blockEdges).getD 0 []) ∧
    commonLen
      (((meshUpdate 3 2 4 [[(0 : ℤ)], [1], [2]] [false, false, false]
        (fun _ => 1) [0] [3] (fun ps _ => List.range ps.length)
        (fun ps _ ip => ps.map (fun _ => ip))).partVecs).getD 0 [])
      (((meshUpdate 3 2 4 [[(0 : ℤ)], [1], [2]] [false, false, false]
        (fun _ => 1) [0] [3] (fun ps _ => List.range ps.length)
        (fun ps _ ip => ps.map (fun _ => ip))).partVecs).getD 1 []) = 0 :=
  ⟨by decide,
   block_bucket_key_consistent 3 2 4 [[(0 : ℤ)], [1], [2]] [false, false, false]
     (fun _ => 1) [0] [3] (fun ps _ => List.range ps.length)
     (fun ps _ ip => ps.map (fun _ => ip)) 0 (0, 1) (by decide)⟩

/-- Claim C2: after `ParticleMesh::update` (whenever the part-vector
capacity `MaxNumLevels` does not exceed the part count, as in every real
configuration), the block-edge structure has `num_parts + 1` buckets,
every edge `(a, b)` of the adjacency lands in the bucket indexed by
`PartVec::common(p_a, p_b)`, and the concatenation of all buckets is a
permutation of the unordered edge list — no edge is lost and none is
duplicated. -/

theorem block_edges_partition (T L M : ℕ) (pos : List (List R))
    (fixed : List Bool) (radius : ℕ → R) (lo hi : List R)
    (partFn : List (List R) → ℕ → List ℕ)
    (secFn : List (List R) → ℕ → ℕ → List ℕ)
    (hM : M ≤ numParts T L) :
    ((meshUpdate T L M pos fixed radius lo hi partFn secFn).blockEdges).length =
        numParts T L + 1 ∧
    ((meshUpdate T L M pos fixed radius lo hi partFn secFn).blockEdges).flatten.Perm
      (graphEdges (meshUpdate T L M pos fixed radius lo hi partFn secFn).adjacency) ∧
    (∀ ab ∈ graphEdges (meshUpdate T L M pos fixed radius lo hi partFn secFn).adjacency,
      ab ∈ ((meshUpdate T L M pos fixed radius lo hi partFn secFn).blockEdges).getD
        (commonLen
          (((meshUpdate T L M pos fixed radius lo hi partFn secFn).partVecs).getD ab.1 [])
          (((meshUpdate T L M pos fixed radius lo hi partFn secFn).partVecs).getD ab.2 []))
        []) := by
  simp only [meshUpdate]
  set adj := searchAdjacency pos radius with hadj
  set pvs := partitionLevels pos adj T L M partFn secFn with hpvs
  have hkeys : ∀ kv ∈ keyedEdges adj pvs, kv.1 < numParts T L + 1 := by
    intro kv hkv
    have h1 := keyedEdges_key_le adj pvs
      (partitionLevels_length_le pos adj T L M partFn secFn) kv hkv
    omega
  refine ⟨by simp [assignPairsWide], ?_, ?_⟩
  · have hperm := assignPairsWide_flatten_perm _ _ hkeys
    have heq : (keyedEdges adj pvs).map (fun kv => kv.2) = graphEdges adj := by
      unfold keyedEdges
      rw [List.map_map]
      have hcomp : ((fun kv : ℕ × ℕ × ℕ => kv.2) ∘
          fun ab : ℕ × ℕ => (commonLen (pvs.getD ab.1 []) (pvs.getD ab.2 []), ab)) =
          id := rfl
      rw [hcomp, List.map_id]
    rwa [heq] at hperm
  · intro ab hab
    have hkv : (commonLen (pvs.getD ab.1 []) (pvs.getD ab.2 []), ab) ∈
        keyedEdges adj pvs := List.mem_map_of_mem _ hab
    have hklt : commonLen (pvs.getD ab.1 []) (pvs.getD ab.2 []) <
        numParts T L + 1 := hkeys _ hkv
    rw [assignPairsWide_getD _ _ _ hklt]
    refine List.mem_map.mpr ⟨(commonLen (pvs.getD ab.1 []) (pvs.getD ab.2 []), ab),
      ?_, rfl⟩
    exact List.mem_filter.mpr ⟨hkv, by simp⟩

/-- Witness for C2 on the three-particle configuration
(`MaxNumLevels = 4 ≤ num_parts = 7`). -/

theorem block_edges_partition_witness :
    (4 ≤ numParts 3 2) ∧
    (((meshUpdate 3 2 4 [[(0 : ℤ)], [1], [2]] [false, false, false]
        (fun _ => 1) [0] [3] (fun ps _ => List.range ps.length)
        (fun ps _ ip => ps.map (fun _ => ip))).blockEdges).length =
          numParts 3 2 + 1 ∧
     ((meshUpdate 3 2 4 [[(0 : ℤ)], [1], [2]] [false, false, false]
        (fun _ => 1) [0] [3] (fun ps _ => List.range ps.length)
        (fun ps _ ip => ps.map (fun _ => ip))).blockEdges).flatten.Perm
       (graphEdges (meshUpdate 3 2 4 [[(0 : ℤ)], [1], [2]] [false, false, false]
        (fun _ => 1) [0] [3] (fun ps _ => List.range ps.length)
        (fun ps _ ip => ps.map (fun _ => ip))).adjacency) ∧
     (∀ ab ∈ graphEdges (meshUpdate 3 2 4 [[(0 : ℤ)], [1], [2]]
          [false, false, false] (fun _ => 1) [0] [3]
          (fun ps _ => List.range ps.length)
          (fun ps _ ip => ps.map (fun _ => ip))).adjacency,
        ab ∈ ((meshUpdate 3 2 4 [[(0 : ℤ)], [1], [2]] [false, false, false]
          (fun _ => 1) [0] [3] (fun ps _ => List.range ps.length)
          (fun ps _ ip => ps.map (fun _ => ip))).blockEdges).getD
          (commonLen
            (((meshUpdate 3 2 4 [[(0 : ℤ)], [1], [2]] [false, false, false]
              (fun _ => 1) [0] [3] (fun ps _ => List.range ps.length)
              (fun ps _ ip => ps.map (fun _ => ip))).partVecs).getD ab.1 [])
            (((meshUpdate 3 2 4 [[(0 : ℤ)], [1], [2]] [false, false, false]
              (fun _ => 1) [0] [3] (fun ps _ => List.range ps.length)
              (fun ps _ ip => ps.map (fun _ => ip))).partVecs).getD ab.2 []))
          [])) :=
  ⟨by decide,
   block_edges_partition 3 2 4 [[(0 : ℤ)], [1], [2]] [false, false, false]
     (fun _ => 1) [0] [3] (fun ps _ => List.range ps.length)
     (fun ps _ ip => ps.map (fun _ => ip)) (by decide)⟩

/-! ### GEM sort-order theorem (claim C6) -/

/-- Claim C6: on the path graph `0 - 1 - 2` with node weights `1, 2, 3`
and unit edge weights, the GEM edge sort of the source
(`par::sort(fine_edges, std::greater{}, key)`) orders the equal-weight
edges by their minimum endpoint node weight *descending*: it traverses
`(1, 2)` (min weight `2`) before `(0, 1)` (min weight `1`),
independently of the hash, and matches `{1, 2}` leaving `0` a
singleton. The order prescribed by the claim and by the source's own
comment ("prioritize the edges with the smallest node weights") is
ascending: it traverses `(0, 1)` first and matches `{0, 1}` leaving `2`
a singleton. The two matchings differ, so the implemented comparison
contradicts the documented one. -/

theorem gem_sort_min_weight_descending_bug :
    gemOrder (WGraph.mk [(1, [(1, 1)]), (2, [(0, 1), (2, 1)]), (3, [(1, 1)])])
        (fun _ _ => 0) = [(1, 2, 1), (0, 1, 1)] ∧
    (gemMatch (WGraph.mk [(1, [(1, 1)]), (2, [(0, 1), (2, 1)]), (3, [(1, 1)])])
        (fun _ _ => 0)).f2c = [some 1, some 0, some 0] ∧
    specGemOrder (WGraph.mk [(1, [(1, 1)]), (2, [(0, 1), (2, 1)]), (3, [(1, 1)])])
        (fun _ _ => 0) = [(0, 1, 1), (1, 2, 1)] ∧
    (specGemMatch (WGraph.mk [(1, [(1, 1)]), (2, [(0, 1), (2, 1)]), (3, [(1, 1)])])
        (fun _ _ => 0)).f2c = [some 0, some 0, some 1] := by
  refine ⟨?_, ?_, ?_, ?_⟩ <;> decide

/-! ### Multilevel partitioner theorem (claim C7) -/

/-- Claim C7: with `0 < K ≤ |V(G)|` (the asserted preconditions), one
step of the multilevel partitioner coarsens `G` to `G'`, invokes the
coarsest partitioner exactly when `|V(G')| ≤ 15·K` or the integer guard
`10·|V(G')| ≥ 8·|V(G)|` holds — which is equivalent to the ratio
condition `|V(G')| / |V(G)| ≥ 0.8`, i.e. coarsening reduced the node
count by less than 20% — and otherwise recurses on `G'`; in either case
the coarse partition is projected back through the fine-to-coarse map
and refined. -/

theorem multilevel_partition_structure
    (coarsen : WGraph → WGraph × List ℕ) (coarsest : WGraph → ℕ → List ℕ)
    (refine : WGraph → List ℕ → ℕ → List ℕ) (K : ℕ) (g : WGraph)
    (hK : 0 < K) (hKn : K ≤ numNodes g) :
    (mlPartition coarsen coarsest refine K g =
      if numNodes (coarsen g).1 ≤ 15 * K ∨
          10 * numNodes (coarsen g).1 ≥ 8 * numNodes g then
        refine g (projectParts (coarsest (coarsen g).1 K) (coarsen g).2) K
      else
        refine g
          (projectParts (mlPartition coarsen coarsest refine K (coarsen g).1)
            (coarsen g).2) K) ∧
    ((numNodes (coarsen g).1 ≤ 15 * K ∨
        10 * numNodes (coarsen g).1 ≥ 8 * numNodes g) ↔
      (numNodes (coarsen g).1 ≤ 15 * K ∨
        ((numNodes (coarsen g).1 : ℚ) / (numNodes g : ℚ) ≥ 4 / 5))) := by
  have hg : 0 < numNodes g := lt_of_lt_of_le hK hKn
  have hfQ : (0 : ℚ) < (numNodes g : ℚ) := by exact_mod_cast hg
  constructor
  · by_cases hc : numNodes (coarsen g).1 ≤ 15 * K ∨
        10 * numNodes (coarsen g).1 ≥ 8 * numNodes g
    · rw [if_pos hc, mlPartition, dif_pos hc]
    · rw [if_neg hc, mlPartition, dif_neg hc]
  · have key : (10 * numNodes (coarsen g).1 ≥ 8 * numNodes g) ↔
        ((numNodes (coarsen g).1 : ℚ) / (numNodes g : ℚ) ≥ 4 / 5) := by
      constructor
      · intro h
        rw [ge_iff_le, div_le_div_iff₀ (by norm_num) hfQ]
        exact_mod_cast
          (by omega : 4 * numNodes g ≤ numNodes (coarsen g).1 * 5)
      · intro h
        rw [ge_iff_le, div_le_div_iff₀ (by norm_num) hfQ] at h
        have hn : 4 * numNodes g ≤ numNodes (coarsen g).1 * 5 := by
          exact_mod_cast h
        omega
    constructor
    · rintro (h | h)
      · exact Or.inl h
      · exact Or.inr (key.mp h)
    · rintro (h | h)
      · exact Or.inl h
      · exact Or.inr (key.mpr h)

/-- Witness for C7 at a one-node graph with trivial coarsening,
coarsest-partitioning and refinement functions. -/

theorem multilevel_partition_structure_witness :
    (0 < 1 ∧ 1 ≤ numNodes (WGraph.mk [(1, [])])) ∧
    ((mlPartition (fun _ => (WGraph.mk [(1, [])], [0]))
        (fun h _ => List.replicate (numNodes h) 0) (fun _ parts _ => parts) 1
        (WGraph.mk [(1, [])]) =
      if numNodes ((fun _ : WGraph => (WGraph.mk [(1, [])], [0]))
            (WGraph.mk [(1, [])])).1 ≤ 15 * 1 ∨
          10 * numNodes ((fun _ : WGraph => (WGraph.mk [(1, [])], [0]))
            (WGraph.mk [(1, [])])).1 ≥ 8 * numNodes (WGraph.mk [(1, [])]) then
        (fun _ parts _ => parts) (WGraph.mk [(1, [])])
          (projectParts
            ((fun (h : WGraph) (_ : ℕ) => List.replicate (numNodes h) 0)
              ((fun _ : WGraph => (WGraph.mk [(1, [])], [0]))
                (WGraph.mk [(1, [])])).1 1)
            ((fun _ : WGraph => (WGraph.mk [(1, [])], [0]))
              (WGraph.mk [(1, [])])).2) 1
      else
        (fun _ parts _ => parts) (WGraph.mk [(1, [])])
          (projectParts
            (mlPartition (fun _ => (WGraph.mk [(1, [])], [0]))
              (fun h _ => List.replicate (numNodes h) 0)
              (fun _ parts _ => parts) 1
              ((fun _ : WGraph => (WGraph.mk [(1, [])], [0]))
                (WGraph.mk [(1, [])])).1)
            ((fun _ : WGraph => (WGraph.mk [(1, [])], [0]))
              (WGraph.mk [(1, [])])).2) 1) ∧
     ((numNodes ((fun _ : WGraph => (WGraph.mk [(1, [])], [0]))
          (WGraph.mk [(1, [])])).1 ≤ 15 * 1 ∨
        10 * numNodes ((fun _ : WGraph => (WGraph.mk [(1, [])], [0]))
          (WGraph.mk [(1, [])])).1 ≥ 8 * numNodes (WGraph.mk [(1, [])])) ↔
      (numNodes ((fun _ : WGraph => (WGraph.mk [(1, [])], [0]))
          (WGraph.mk [(1, [])])).1 ≤ 15 * 1 ∨
        ((numNodes ((fun _ : WGraph => (WGraph.mk [(1, [])], [0]))
            (WGraph.mk [(1, [])])).1 : ℚ) /
            (numNodes (WGraph.mk [(1, [])]) : ℚ) ≥ 4 / 5)))) :=
  ⟨⟨by decide, by decide⟩,
   multilevel_partition_structure (fun _ => (WGraph.mk [(1, [])], [0]))
     (fun h _ => List.replicate (numNodes h) 0) (fun _ parts _ => parts) 1
     (WGraph.mk [(1, [])]) (by decide) (by decide)⟩

theorem keyOf_set {f2c : List (Option ℕ)} {a : ℕ} (ha : a < f2c.length)
    (x : Option ℕ) (v : ℕ) :
    keyOf (f2c.set a x) v = if a = v then x else keyOf f2c v := by
  unfold keyOf
  rw [List.getD_eq_getElem?_getD, List.getElem?_set]
  rcases eq_or_ne a v with rfl | hne
  · rw [if_pos rfl, if_pos rfl, if_pos ha]
    rfl
  · rw [if_neg hne, if_neg hne, ← List.getD_eq_getElem?_getD]

theorem flatMap_congr_on {l : List ℕ} {f g : ℕ → List ℕ}
    (h : ∀ x ∈ l, f x = g x) : l.flatMap f = l.flatMap g := by
  induction l with
  | nil => rfl
  | cons x xs ih =>
    simp only [List.flatMap_cons]
    rw [h x (List.mem_cons_self _ _), ih (fun y hy => h y (List.mem_cons_of_mem _ hy))]

theorem BlocksOf_append_new {f2c : List (Option ℕ)} {c2f : List ℕ} {K : ℕ}
    {B : ℕ → List ℕ} (h : BlocksOf f2c c2f K B) {a : ℕ}
    (ha : a < f2c.length) (hun : keyOf f2c a = none) :
    BlocksOf (f2c.set a (some K)) (c2f ++ [a]) (K + 1)
      (fun i => if i = K then [a] else B i) := by
  obtain ⟨hc, hne, hkey, hconv⟩ := h
  refine ⟨?_, ?_, ?_, ?_⟩
  · rw [List.range_succ, List.flatMap_append, List.flatMap_cons, List.flatMap_nil,
      List.append_nil, if_pos rfl]
    congr 1
    · rw [hc]
      exact (flatMap_congr_on (fun i hi => by
        rw [if_neg (by have := List.mem_range.mp hi; omega)])).symm
  · intro i hi
    dsimp only
    rcases eq_or_ne i K with rfl | hiK
    · simp
    · rw [if_neg hiK]
      exact hne i (by omega)
  · intro i hi v hv
    dsimp only at hv
    rcases eq_or_ne i K with rfl | hiK
    · rw [if_pos rfl] at hv
      rcases List.mem_singleton.mp hv with rfl
      rw [keyOf_set ha, if_pos rfl]
    · rw [if_neg hiK] at hv
      have hik : i < K := by omega
      have hold := hkey i hik v hv
      have hav : a ≠ v := by
        intro heq
        rw [heq, hold] at hun
        exact Option.noConfusion hun
      rw [keyOf_set ha, if_neg hav]
      exact hold
  · intro v k hvk
    dsimp only
    rw [keyOf_set ha] at hvk
    by_cases hav : a = v
    · rw [if_pos hav] at hvk
      have hkK : k = K := by
        cases hvk
        rfl
      subst hkK
      subst hav
      refine ⟨by omega, ?_⟩
      rw [if_pos rfl]
      simp
    · rw [if_neg hav] at hvk
      have := hconv v k hvk
      refine ⟨by omega, ?_⟩
      rw [if_neg (by omega)]
      exact this.2

theorem BlocksOf_append_last {f2c : List (Option ℕ)} {c2f : List ℕ} {K : ℕ}
    {B : ℕ → List ℕ} (h : BlocksOf f2c c2f (K + 1) B) {a : ℕ}
    (ha : a < f2c.length) (hun : keyOf f2c a = none) :
    BlocksOf (f2c.set a (some K)) (c2f ++ [a]) (K + 1)
      (fun i => if i = K then B K ++ [a] else B i) := by
  obtain ⟨hc, hne, hkey, hconv⟩ := h
  refine ⟨?_, ?_, ?_, ?_⟩
  · rw [List.range_succ, List.flatMap_append, List.flatMap_cons, List.flatMap_nil,
      List.append_nil] at hc
    rw [List.range_succ, List.flatMap_append, List.flatMap_cons, List.flatMap_nil,
      List.append_nil]
    rw [if_pos rfl, hc, List.append_assoc]
    congr 1
    exact (flatMap_congr_on (fun i hi => by
      rw [if_neg (by have := List.mem_range.mp hi; omega)])).symm
  · intro i hi
    dsimp only
    by_cases hiK : i = K
    · rw [if_pos hiK]
      intro hcon
      exact (hne K (by omega)) (List.append_eq_nil.mp hcon).1
    · rw [if_neg hiK]
      exact hne i hi
  · intro i hi v hv
    dsimp only at hv
    by_cases hiK : i = K
    · rw [if_pos hiK] at hv
      subst hiK
      rcases List.mem_append.mp hv with hv' | hv'
      · have hold := hkey i (by omega) v hv'
        have hav : a ≠ v := by
          intro heq
          rw [heq, hold] at hun
          exact Option.noConfusion hun
        rw [keyOf_set ha, if_neg hav]
        exact hold
      · rcases List.mem_singleton.mp hv' with rfl
        rw [keyOf_set ha, if_pos rfl]
    · rw [if_neg hiK] at hv
      have hold := hkey i hi v hv
      have hav : a ≠ v := by
        intro heq
        rw [heq, hold] at hun
        exact Option.noConfusion hun
      rw [keyOf_set ha, if_neg hav]
      exact hold
  · intro v k hvk
    dsimp only
    rw [keyOf_set ha] at hvk
    by_cases hav : a = v
    · rw [if_pos hav] at hvk
      have hkK : k = K := by
        cases hvk
        rfl
      subst hkK
      refine ⟨by omega, ?_⟩
      rw [if_pos rfl]
      rw [hav]
      simp
    · rw [if_neg hav] at hvk
      have hcv := hconv v k hvk
      refine ⟨hcv.1, ?_⟩
      by_cases hkK : k = K
      · rw [if_pos hkK]
        subst hkK
        exact List.mem_append.mpr (Or.inl hcv.2)
      · rw [if_neg hkK]
        exact hcv.2

theorem foldl_preserves_mem {σ β : Type} {P : σ → Prop} :
    ∀ (l : List β) (f : σ → β → σ),
      (∀ s x, x ∈ l → P s → P (f s x)) → ∀ s, P s → P (l.foldl f s) := by
  intro l
  induction l with
  | nil => intro f _ s hs; exact hs
  | cons x xs ih =>
    intro f h s hs
    exact ih f (fun s' y hy => h s' y (List.mem_cons_of_mem _ hy)) _
      (h s x (List.mem_cons_self _ _) hs)

theorem matchInv_init (n : ℕ) : matchInv n (initMatch n) := by
  refine ⟨by simp [initMatch], 0, fun _ => [], ⟨rfl, ?_, ?_, ?_⟩, Or.inl rfl⟩
  · intro i hi; omega
  · intro i hi; omega
  · intro v k hvk
    exfalso
    unfold keyOf initMatch at hvk
    rw [List.getD_eq_getElem?_getD] at hvk
    rcases Nat.lt_or_ge v n with hv | hv
    · rw [List.getElem?_replicate_of_lt (by simpa using hv)] at hvk
      simp at hvk
    · rw [List.getElem?_eq_none (by simpa using hv)] at hvk
      simp at hvk

theorem assignedB_false_none {st : MatchState} {v : ℕ}
    (h : assignedB st v = false) : keyOf st.f2c v = none := by
  unfold assignedB at h
  cases hk : keyOf st.f2c v with
  | none => rfl
  | some k => rw [hk] at h; simp at h

theorem pushOne_inv {n : ℕ} {st : MatchState} (h : matchInv n st) {a : ℕ}
    (ha : a < n) (hun : keyOf st.f2c a = none) :
    (pushOne st a).f2c.length = n ∧
    ∃ B, BlocksOf (pushOne st a).f2c (pushOne st a).c2f (pushOne st a).next B := by
  obtain ⟨hlen, K, B, hB, hK⟩ := h
  have ha' : a < st.f2c.length := by omega
  refine ⟨by simp [pushOne, hlen], ?_⟩
  rcases hK with hK | hK
  · subst hK
    exact ⟨_, BlocksOf_append_new hB ha' hun⟩
  · subst hK
    exact ⟨_, BlocksOf_append_last hB ha' hun⟩

theorem gemStepNode_inv {n : ℕ} {st : MatchState} {v : ℕ}
    (h : matchInv n st) (hv : v < n) : matchInv n (gemStepNode st v) := by
  unfold gemStepNode
  cases ha : assignedB st v with
  | true => rw [if_pos rfl]; exact h
  | false =>
    rw [if_neg (by simp)]
    obtain ⟨hlen, B, hB⟩ := pushOne_inv h hv (assignedB_false_none ha)
    exact ⟨hlen, _, B, hB, Or.inl rfl⟩

theorem gemStepEdge_inv {n : ℕ} {st : MatchState} {e : ℕ × ℕ × ℕ}
    (h : matchInv n st) (h1 : e.1 < n) (h2 : e.2.1 < n) (hne : e.1 ≠ e.2.1) :
    matchInv n (gemStepEdge st e) := by
  unfold gemStepEdge
  cases ha : (assignedB st e.1 || assignedB st e.2.1) with
  | true => rw [if_pos rfl]; exact h
  | false =>
    rw [if_neg (by simp)]
    rw [Bool.or_eq_false_iff] at ha
    have hun1 : keyOf st.f2c e.1 = none := assignedB_false_none ha.1
    have hun2 : keyOf st.f2c e.2.1 = none := assignedB_false_none ha.2
    obtain ⟨hlen1, B1, hB1⟩ := pushOne_inv h h1 hun1
    have hlen0 : st.f2c.length = n := h.1
    have hun2' : keyOf (pushOne st e.1).f2c e.2.1 = none := by
      show keyOf (st.f2c.set e.1 (some st.next)) e.2.1 = none
      rw [keyOf_set (by omega), if_neg hne]
      exact hun2
    have hB2 := BlocksOf_append_last
      (K := st.next) (by exact hB1) (a := e.2.1) (by simp [pushOne]; omega) hun2'
    refine ⟨by simp [List.length_set, hlen0], st.next + 1,
      (fun i => if i = st.next then B1 st.next ++ [e.2.1] else B1 i), ?_,
      Or.inl rfl⟩
    have hc2f : (pushOne st e.1).c2f ++ [e.2.1] = st.c2f ++ [e.1, e.2.1] := by
      simp [pushOne]
    show BlocksOf ((st.f2c.set e.1 (some st.next)).set e.2.1 (some st.next))
      (st.c2f ++ [e.1, e.2.1]) (st.next + 1) _
    rw [← hc2f]
    exact hB2

theorem hemBest_spec (g : WGraph) (rng : ℕ → ℕ → Bool) (f2c : List (Option ℕ))
    (a b : ℕ) (hb : hemBest g rng f2c a = some b) :
    keyOf f2c b = none ∧ b ∈ (wedgesOf g a).map Prod.fst := by
  unfold hemBest at hb
  refine foldl_preserves_mem
    (P := fun s : Option ℕ × ℕ => ∀ c, s.1 = some c →
      keyOf f2c c = none ∧ c ∈ (wedgesOf g a).map Prod.fst)
    (wedgesOf g a)
    (fun best bw =>
      if (keyOf f2c bw.1).isSome then best
      else if greaterOr bw.2 best.2
          (lessOr (nodeWeight g bw.1) (weightOrDefault g best.1) (rng a bw.1))
        then (some bw.1, bw.2) else best)
    ?_ ((none : Option ℕ), 0) ?_ b hb
  · intro s bw hbw hs
    dsimp only
    cases hk : (keyOf f2c bw.1).isSome with
    | true => rw [if_pos rfl]; exact hs
    | false =>
      rw [if_neg (by simp)]
      split
      · intro c hc
        have hcb : bw.1 = c := by
          cases hc
          rfl
        subst hcb
        refine ⟨?_, List.mem_map_of_mem _ hbw⟩
        cases hkk : keyOf f2c bw.1 with
        | none => rfl
        | some k => rw [hkk] at hk; simp at hk
      · exact hs
  · intro c hc
    exact Option.noConfusion hc

theorem hemVisit_inv {g : WGraph} {rng : ℕ → ℕ → Bool} {st : MatchState} {a : ℕ}
    (hwf : GraphWF g) (h : matchInv (numNodes g) st) (ha : a < numNodes g) :
    matchInv (numNodes g) (hemVisit g rng st a) := by
  unfold hemVisit
  cases hass : assignedB st a with
  | true => rw [if_pos rfl]; exact h
  | false =>
    rw [if_neg (by simp)]
    have hun := assignedB_false_none hass
    obtain ⟨hlen1, B1, hB1⟩ := pushOne_inv h ha hun
    cases hb : hemBest g rng (pushOne st a).f2c a with
    | none =>
      exact ⟨hlen1, _, B1, hB1, Or.inl rfl⟩
    | some b =>
      obtain ⟨hbnone, hbmem⟩ := hemBest_spec g rng _ a b hb
      have hbn : b < numNodes g := by
        rcases List.mem_map.mp hbmem with ⟨bw, hbw, rfl⟩
        exact (hwf a ha bw hbw).1
      have hB2 := BlocksOf_append_new hB1 (a := b) (by omega) hbnone
      refine ⟨by simp [List.length_set, hlen1], (pushOne st a).next + 1, _, hB2,
        Or.inr ?_⟩
      rfl

theorem keyOf_set_mono {f2c : List (Option ℕ)} {a : ℕ} {x : Option ℕ} {v k : ℕ}
    (hun : keyOf f2c a = none) (h : keyOf f2c v = some k) :
    keyOf (f2c.set a x) v = some k := by
  have hne : a ≠ v := by
    intro heq
    rw [heq, h] at hun
    exact Option.noConfusion hun
  unfold keyOf
  rw [List.getD_eq_getElem?_getD, List.getElem?_set_ne hne,
    ← List.getD_eq_getElem?_getD]
  exact h

theorem pushOne_mono {st : MatchState} {a v k : ℕ}
    (hun : keyOf st.f2c a = none) (h : keyOf st.f2c v = some k) :
    keyOf (pushOne st a).f2c v = some k :=
  keyOf_set_mono hun h

theorem gemStepNode_mono {st : MatchState} {u v k : ℕ}
    (h : keyOf st.f2c v = some k) :
    keyOf (gemStepNode st u).f2c v = some k := by
  unfold gemStepNode
  cases ha : assignedB st u with
  | true => rw [if_pos rfl]; exact h
  | false =>
    rw [if_neg (by simp)]
    exact pushOne_mono (assignedB_false_none ha) h

theorem gemStepEdge_mono {st : MatchState} {e : ℕ × ℕ × ℕ} {v k : ℕ}
    (h : keyOf st.f2c v = some k) :
    keyOf (gemStepEdge st e).f2c v = some k := by
  unfold gemStepEdge
  cases ha : (assignedB st e.1 || assignedB st e.2.1) with
  | true => rw [if_pos rfl]; exact h
  | false =>
    rw [if_neg (by simp)]
    rw [Bool.or_eq_false_iff] at ha
    have hne1 : e.1 ≠ v := by
      intro heq
      have hx := assignedB_false_none ha.1
      rw [heq, h] at hx
      exact Option.noConfusion hx
    have hne2 : e.2.1 ≠ v := by
      intro heq
      have hx := assignedB_false_none ha.2
      rw [heq, h] at hx
      exact Option.noConfusion hx
    unfold keyOf
    rw [List.getD_eq_getElem?_getD, List.getElem?_set_ne hne2,
      List.getElem?_set_ne hne1, ← List.getD_eq_getElem?_getD]
    exact h

theorem hemVisit_mono {g : WGraph} {rng : ℕ → ℕ → Bool} {st : MatchState}
    {a v k : ℕ} (h : keyOf st.f2c v = some k) :
    keyOf (hemVisit g rng st a).f2c v = some k := by
  unfold hemVisit
  cases hass : assignedB st a with
  | true => rw [if_pos rfl]; exact h
  | false =>
    rw [if_neg (by simp)]
    have h1 := pushOne_mono (assignedB_false_none hass) h
    cases hb : hemBest g rng (pushOne st a).f2c a with
    | none => exact h1
    | some b =>
      obtain ⟨hbnone, _⟩ := hemBest_spec g rng _ a b hb
      exact keyOf_set_mono hbnone h1

theorem gemStepNode_assigned {st : MatchState} {v : ℕ}
    (hv : v < st.f2c.length) :
    ((keyOf (gemStepNode st v).f2c v).isSome : Prop) := by
  unfold gemStepNode
  cases ha : assignedB st v with
  | true =>
    rw [if_pos rfl]
    unfold assignedB at ha
    rw [ha]
  | false =>
    rw [if_neg (by simp)]
    show ((keyOf (st.f2c.set v (some st.next)) v).isSome : Prop)
    rw [keyOf_set hv, if_pos rfl]
    rfl

theorem hemVisit_assigned {g : WGraph} {rng : ℕ → ℕ → Bool} {st : MatchState}
    {a : ℕ} (ha : a < st.f2c.length) :
    ((keyOf (hemVisit g rng st a).f2c a).isSome : Prop) := by
  unfold hemVisit
  cases hass : assignedB st a with
  | true =>
    rw [if_pos rfl]
    unfold assignedB at hass
    rw [hass]
  | false =>
    rw [if_neg (by simp)]
    have h1 : keyOf (pushOne st a).f2c a = some st.next := by
      show keyOf (st.f2c.set a (some st.next)) a = some st.next
      rw [keyOf_set ha, if_pos rfl]
    cases hb : hemBest g rng (pushOne st a).f2c a with
    | none =>
      rw [h1]
      rfl
    | some b =>
      obtain ⟨hbnone, _⟩ := hemBest_spec g rng _ a b hb
      rw [keyOf_set_mono hbnone h1]
      rfl

theorem gemStepNode_length (st : MatchState) (v : ℕ) :
    (gemStepNode st v).f2c.length = st.f2c.length := by
  unfold gemStepNode
  split
  · rfl
  · simp [pushOne]

theorem gemStepEdge_length (st : MatchState) (e : ℕ × ℕ × ℕ) :
    (gemStepEdge st e).f2c.length = st.f2c.length := by
  unfold gemStepEdge
  split
  · rfl
  · simp

theorem hemVisit_length (g : WGraph) (rng : ℕ → ℕ → Bool) (st : MatchState)
    (a : ℕ) : (hemVisit g rng st a).f2c.length = st.f2c.length := by
  unfold hemVisit
  split
  · rfl
  · split
    · simp [pushOne]
    · simp [pushOne]

theorem gem_nodes_total :
    ∀ (l : List ℕ) (st : MatchState), (∀ v ∈ l, v < st.f2c.length) →
      ∀ v ∈ l, ((keyOf (l.foldl gemStepNode st).f2c v).isSome : Prop) := by
  intro l
  induction l with
  | nil => intro st _ v hv; simp at hv
  | cons x xs ih =>
    intro st hbound v hv
    rw [List.foldl_cons]
    rcases List.mem_cons.mp hv with rfl | hv'
    · have hx : ((keyOf (gemStepNode st v).f2c v).isSome : Prop) :=
        gemStepNode_assigned (hbound v (List.mem_cons_self _ _))
      obtain ⟨k, hk⟩ := Option.isSome_iff_exists.mp hx
      have := foldl_preserves
        (P := fun st' : MatchState => keyOf st'.f2c v = some k)
        gemStepNode (fun s u hs => gemStepNode_mono hs) xs _ hk
      rw [this]
      rfl
    · refine ih (gemStepNode st x) ?_ v hv'
      intro u hu
      rw [gemStepNode_length]
      exact hbound u (List.mem_cons_of_mem _ hu)

theorem hem_nodes_total (g : WGraph) (rng : ℕ → ℕ → Bool) :
    ∀ (l : List ℕ) (st : MatchState), (∀ v ∈ l, v < st.f2c.length) →
      ∀ v ∈ l, ((keyOf (l.foldl (hemVisit g rng) st).f2c v).isSome : Prop) := by
  intro l
  induction l with
  | nil => intro st _ v hv; simp at hv
  | cons x xs ih =>
    intro st hbound v hv
    rw [List.foldl_cons]
    rcases List.mem_cons.mp hv with rfl | hv'
    · have hx : ((keyOf (hemVisit g rng st v).f2c v).isSome : Prop) :=
        hemVisit_assigned (hbound v (List.mem_cons_self _ _))
      obtain ⟨k, hk⟩ := Option.isSome_iff_exists.mp hx
      have := foldl_preserves
        (P := fun st' : MatchState => keyOf st'.f2c v = some k)
        (hemVisit g rng) (fun s u hs => hemVisit_mono hs) xs _ hk
      rw [this]
      rfl
    · refine ih (hemVisit g rng st x) ?_ v hv'
      intro u hu
      rw [hemVisit_length]
      exact hbound u (List.mem_cons_of_mem _ hu)

theorem wedgesAll_mem_bounds {g : WGraph} (hwf : GraphWF g) :
    ∀ e ∈ wedgesAll g, e.1 < numNodes g ∧ e.2.1 < numNodes g ∧ e.1 ≠ e.2.1 := by
  intro e he
  unfold wedgesAll at he
  rcases List.mem_flatMap.mp he with ⟨a, ha, he'⟩
  rcases List.mem_filterMap.mp he' with ⟨bw, hbw, hsome⟩
  split at hsome
  · cases hsome
    have hb := (hwf a (List.mem_range.mp ha) bw hbw).1
    refine ⟨List.mem_range.mp ha, hb, ?_⟩
    dsimp only
    omega
  · exact Option.noConfusion hsome

theorem takeWhile_append_of_all {α : Type} {p : α → Bool} {xs ys : List α}
    (h : ∀ x ∈ xs, p x = true) :
    (xs ++ ys).takeWhile p = xs ++ ys.takeWhile p := by
  induction xs with
  | nil => rfl
  | cons x xs ih =>
    rw [List.cons_append, List.takeWhile_cons,
      if_pos (h x (List.mem_cons_self _ _)), List.cons_append,
      ih (fun y hy => h y (List.mem_cons_of_mem _ hy))]

theorem dropWhile_append_of_all {α : Type} {p : α → Bool} {xs ys : List α}
    (h : ∀ x ∈ xs, p x = true) :
    (xs ++ ys).dropWhile p = ys.dropWhile p := by
  induction xs with
  | nil => rfl
  | cons x xs ih =>
    rw [List.cons_append, List.dropWhile_cons,
      if_pos (h x (List.mem_cons_self _ _)),
      ih (fun y hy => h y (List.mem_cons_of_mem _ hy))]

theorem takeWhile_eq_nil_of_all_false {α : Type} {p : α → Bool} {l : List α}
    (h : ∀ x ∈ l, p x = false) : l.takeWhile p = [] := by
  cases l with
  | nil => rfl
  | cons x xs =>
    rw [List.takeWhile_cons, if_neg (by rw [h x (List.mem_cons_self _ _)]; simp)]

theorem dropWhile_eq_self_of_all_false {α : Type} {p : α → Bool} {l : List α}
    (h : ∀ x ∈ l, p x = false) : l.dropWhile p = l := by
  cases l with
  | nil => rfl
  | cons x xs =>
    rw [List.dropWhile_cons, if_neg (by rw [h x (List.mem_cons_self _ _)]; simp)]

theorem equalityRanges_flatMap (f2c : List (Option ℕ)) :
    ∀ (K s : ℕ) (B : ℕ → List ℕ),
      (∀ i, s ≤ i → i < s + K → B i ≠ []) →
      (∀ i, s ≤ i → i < s + K → ∀ v ∈ B i, keyOf f2c v = some i) →
      equalityRanges f2c ((List.range' s K).flatMap B) =
        (List.range' s K).map B := by
  intro K
  induction K with
  | zero => intro s B _ _; simp [equalityRanges]
  | succ K ih =>
    intro s B hne hkey
    rw [List.range'_succ, List.flatMap_cons, List.map_cons]
    have hBs : B s ≠ [] := hne s le_rfl (by omega)
    obtain ⟨a, tail, hBs'⟩ : ∃ a tail, B s = a :: tail := by
      cases hB : B s with
      | nil => exact absurd hB hBs
      | cons a tail => exact ⟨a, tail, rfl⟩
    have hka : keyOf f2c a = some s :=
      hkey s le_rfl (by omega) a (by rw [hBs']; exact List.mem_cons_self _ _)
    have htail : ∀ x ∈ tail,
        (keyOf f2c x == keyOf f2c a) = true := by
      intro x hx
      have := hkey s le_rfl (by omega) x (by rw [hBs']; exact List.mem_cons_of_mem _ hx)
      rw [this, hka]
      simp
    have hrest : ∀ x ∈ (List.range' (s + 1) K).flatMap B,
        (keyOf f2c x == keyOf f2c a) = false := by
      intro x hx
      rcases List.mem_flatMap.mp hx with ⟨i, hi, hxi⟩
      have hi' := List.mem_range'_1.mp hi
      have := hkey i (by omega) (by omega) x hxi
      rw [this, hka]
      simp
      omega
    rw [hBs', List.cons_append]
    rw [equalityRanges]
    congr 1
    · rw [takeWhile_append_of_all htail,
        takeWhile_eq_nil_of_all_false hrest, List.append_nil]
    · rw [dropWhile_append_of_all htail,
        dropWhile_eq_self_of_all_false hrest]
      exact ih (s + 1) B (fun i h1 h2 => hne i (by omega) (by omega))
        (fun i h1 h2 => hkey i (by omega) (by omega))

theorem foldl_max_init_le : ∀ (l : List ℕ) (a : ℕ), a ≤ l.foldl max a := by
  intro l
  induction l with
  | nil => intro a; exact le_rfl
  | cons x xs ih =>
    intro a
    exact le_trans (le_max_left a x) (ih (max a x))

theorem foldl_max_le_of : ∀ (l : List ℕ) (a m : ℕ), a ≤ m →
    (∀ x ∈ l, x ≤ m) → l.foldl max a ≤ m := by
  intro l
  induction l with
  | nil => intro a m ha _; exact ha
  | cons x xs ih =>
    intro a m ha h
    exact ih _ m (max_le ha (h x (List.mem_cons_self _ _)))
      (fun y hy => h y (List.mem_cons_of_mem _ hy))

theorem mem_le_foldl_max : ∀ (l : List ℕ) (a x : ℕ), x ∈ l →
    x ≤ l.foldl max a := by
  intro l
  induction l with
  | nil => intro a x hx; simp at hx
  | cons y ys ih =>
    intro a x hx
    rcases List.mem_cons.mp hx with rfl | hx'
    · exact le_trans (le_max_right a x) (foldl_max_init_le ys _)
    · exact ih _ x hx'

theorem keyOf_some_mem {f2c : List (Option ℕ)} {v k : ℕ}
    (h : keyOf f2c v = some k) : v < f2c.length ∧ some k ∈ f2c := by
  unfold keyOf at h
  rw [List.getD_eq_getElem?_getD] at h
  rcases Nat.lt_or_ge v f2c.length with hv | hv
  · rw [List.getElem?_eq_getElem hv] at h
    refine ⟨hv, ?_⟩
    have : f2c[v] = some k := by simpa using h
    rw [← this]
    exact List.getElem_mem _
  · rw [List.getElem?_eq_none (by omega)] at h
    simp at h

theorem coarsenOK_of_inv (g : WGraph) (st : MatchState)
    (h : matchInv (numNodes g) st)
    (htot : ∀ v, v < numNodes g → ((keyOf st.f2c v).isSome : Prop))
    (hn : 0 < numNodes g) : coarsenOK g st := by
  obtain ⟨hlen, K, B, ⟨hc, hne, hkey, hconv⟩, _⟩ := h
  have heq : equalityRanges st.f2c st.c2f = (List.range K).map B := by
    rw [hc, List.range_eq_range']
    exact equalityRanges_flatMap st.f2c K 0 B
      (fun i _ h2 => hne i (by omega))
      (fun i _ h2 => hkey i (by omega))
  have hK1 : 1 ≤ K := by
    have h0 := htot 0 hn
    obtain ⟨k, hk⟩ := Option.isSome_iff_exists.mp h0
    have := (hconv 0 k hk).1
    omega
  have hgetB : ∀ k, k < K → (equalityRanges st.f2c st.c2f).getD k [] = B k := by
    intro k hk
    rw [heq, List.getD_eq_getElem?_getD, List.getElem?_map,
      List.getElem?_range (by simpa using hk)]
    rfl
  refine ⟨htot, ?_, ?_⟩
  · -- max(fine_to_coarse) + 1 = number of coarse nodes
    have hnum : numNodes (buildCoarse g st.f2c st.c2f) = K := by
      unfold buildCoarse numNodes
      rw [List.length_map, heq, List.length_map, List.length_range]
    rw [hnum]
    have hub : maxAssigned st.f2c ≤ K - 1 := by
      refine foldl_max_le_of _ 0 (K - 1) (by omega) ?_
      intro x hx
      rcases List.mem_filterMap.mp hx with ⟨o, ho, hid⟩
      have ho' : o = some x := hid
      subst ho'
      obtain ⟨i, hi, hieq⟩ := List.mem_iff_getElem.mp ho
      have hkeyi : keyOf st.f2c i = some x := by
        unfold keyOf
        rw [List.getD_eq_getElem?_getD, List.getElem?_eq_getElem hi, hieq]
        rfl
      have := (hconv i x hkeyi).1
      omega
    have hlb : K - 1 ≤ maxAssigned st.f2c := by
      have hBne := hne (K - 1) (by omega)
      obtain ⟨v, hv⟩ := List.exists_mem_of_ne_nil _ hBne
      have hkv : keyOf st.f2c v = some (K - 1) :=
        hkey (K - 1) (by omega) v hv
      obtain ⟨hvlen, hmem⟩ := keyOf_some_mem hkv
      refine mem_le_foldl_max _ 0 (K - 1) ?_
      exact List.mem_filterMap.mpr ⟨some (K - 1), hmem, rfl⟩
    unfold maxAssigned at *
    omega
  · -- each fine node appears in the equality range of its coarse id
    intro v k _ hvk
    have hcv := hconv v k hvk
    rw [hgetB k hcv.1]
    exact hcv.2

/-- Claim C9: for both HEM and GEM coarsening of a well-formed nonempty
graph (with arbitrary hash and random-tie-break functions),
`fine_to_coarse` assigns every fine node a coarse id, the largest
assigned coarse id plus one equals the number of nodes of the assembled
coarse graph, and for every fine node `i`, the equality range of
`coarse_to_fine` at coarse node `fine_to_coarse[i]` contains `i`. -/

theorem coarsen_fine_coarse_maps (g : WGraph) (hashN : ℕ → ℕ)
    (rng : ℕ → ℕ → Bool) (hashE : ℕ → ℕ → ℕ) (hwf : GraphWF g)
    (hn : 0 < numNodes g) :
    coarsenOK g (hemMatch g hashN rng) ∧ coarsenOK g (gemMatch g hashE) := by
  have hmemHem : ∀ a ∈ hemOrder g hashN, a < numNodes g := by
    intro a ha
    have := (List.perm_insertionSort
      (fun u v => le2 (hemKey g hashN u) (hemKey g hashN v) = true)
      (List.range (numNodes g))).mem_iff.mp ha
    exact List.mem_range.mp this
  have hmemGem : ∀ e ∈ gemOrder g hashE,
      e.1 < numNodes g ∧ e.2.1 < numNodes g ∧ e.1 ≠ e.2.1 := by
    intro e he
    have := (List.perm_insertionSort
      (fun e1 e2 => ge3 (gemKey g hashE e1) (gemKey g hashE e2) = true)
      (wedgesAll g)).mem_iff.mp he
    exact wedgesAll_mem_bounds hwf e this
  constructor
  · -- HEM
    have hinv : matchInv (numNodes g) (hemMatch g hashN rng) := by
      unfold hemMatch
      refine foldl_preserves_mem (P := matchInv (numNodes g)) _ _ ?_ _
        (matchInv_init (numNodes g))
      intro st a ha hst
      exact hemVisit_inv hwf hst (hmemHem a ha)
    refine coarsenOK_of_inv g _ hinv ?_ hn
    intro v hv
    unfold hemMatch
    refine hem_nodes_total g rng (hemOrder g hashN) (initMatch (numNodes g))
      ?_ v ?_
    · intro u hu
      simp only [initMatch, List.length_replicate]
      exact hmemHem u hu
    · have : v ∈ List.range (numNodes g) := List.mem_range.mpr hv
      exact ((List.perm_insertionSort _ _).mem_iff).mpr this
  · -- GEM
    have hinv1 : matchInv (numNodes g)
        ((gemOrder g hashE).foldl gemStepEdge (initMatch (numNodes g))) := by
      refine foldl_preserves_mem (P := matchInv (numNodes g)) _ _ ?_ _
        (matchInv_init (numNodes g))
      intro st e he hst
      obtain ⟨h1, h2, h3⟩ := hmemGem e he
      exact gemStepEdge_inv hst h1 h2 h3
    have hinv : matchInv (numNodes g) (gemMatch g hashE) := by
      unfold gemMatch gemMatchOn
      refine foldl_preserves_mem (P := matchInv (numNodes g)) _ _ ?_ _ hinv1
      intro st v hvmem hst
      exact gemStepNode_inv hst (List.mem_range.mp hvmem)
    refine coarsenOK_of_inv g _ hinv ?_ hn
    intro v hv
    unfold gemMatch gemMatchOn
    refine gem_nodes_total (List.range (numNodes g)) _ ?_ v
      (List.mem_range.mpr hv)
    intro u hu
    have := hinv1.1
    rw [this]
    exact List.mem_range.mp hu

/-- Witness for C9 on the two-node path graph with unit weights. -/

theorem coarsen_fine_coarse_maps_witness :
    (GraphWF (WGraph.mk [(1, [(1, 1)]), (1, [(0, 1)])]) ∧
      0 < numNodes (WGraph.mk [(1, [(1, 1)]), (1, [(0, 1)])])) ∧
    (coarsenOK (WGraph.mk [(1, [(1, 1)]), (1, [(0, 1)])])
        (hemMatch (WGraph.mk [(1, [(1, 1)]), (1, [(0, 1)])]) (fun _ => 0)
          (fun _ _ => false)) ∧
     coarsenOK (WGraph.mk [(1, [(1, 1)]), (1, [(0, 1)])])
        (gemMatch (WGraph.mk [(1, [(1, 1)]), (1, [(0, 1)])]) (fun _ _ => 0))) :=
  ⟨⟨by unfold GraphWF; decide, by decide⟩,
   coarsen_fine_coarse_maps (WGraph.mk [(1, [(1, 1)]), (1, [(0, 1)])])
     (fun _ => 0) (fun _ _ => false) (fun _ _ => 0) (by unfold GraphWF; decide)
     (by decide)⟩

end TitSolver
